import Mathlib

/-!
Shallow embedding of `stacksjs/ts-punycode` (`src/punycode.ts`, `src/types.ts`).

A JavaScript string is modelled as a `List Nat` of UTF-16 code units
(`charCodeAt` values; on an actual JS string every unit is `< 0x10000` and the
length is below `2 ^ 31`, and all arithmetic facts used below are exact for
such inputs, so plain `Nat` arithmetic is a faithful model of the JS number
arithmetic in this code).  Exceptions thrown by the library are modelled with
`Except`: the three `RangeError`s raised through `error(type)` with the fixed
messages of `PUNYCODE_ERRORS`, plus the `RangeError` that the built-in
`String.fromCodePoint` raises on a code point above `0x10FFFF`.

The source's `while` loops are modelled by structural recursion on an explicit
iteration bound, so that every definition is executable by the kernel; each
bound is provably sufficient (see the `_bound` lemmas), making the value of
the exhausted-bound branches irrelevant for the actual entry points.
-/

namespace Punycode

/-- The three error types of `types.ts` (`PunycodeErrorType`). -/
inductive PunyErr : Type where
  | overflow
  | notBasic
  | invalidInput
deriving DecidableEq, Repr

/-- Fixed error messages, from `PUNYCODE_ERRORS` in `types.ts`. -/
def PUNYCODE_ERRORS : PunyErr → String
  | .overflow => "Overflow: input needs wider integers to process"
  | .notBasic => "Illegal input >= 0x80 (not a basic code point)"
  | .invalidInput => "Invalid input"

/-- Everything `decode`/`encode` (and the wrappers) can throw: one of the three
`PUNYCODE_ERRORS` range errors, or the built-in `RangeError` of
`String.fromCodePoint` for an invalid code point. -/
inductive Failure : Type where
  | puny (e : PunyErr)
  | invalidCodePoint (cp : Nat)
deriving DecidableEq, Repr

instance {ε α : Type} [DecidableEq ε] [DecidableEq α] : DecidableEq (Except ε α) :=
  fun a b =>
    match a, b with
    | .ok x, .ok y =>
      if h : x = y then isTrue (h ▸ rfl) else isFalse (fun he => h (Except.ok.inj he))
    | .error e, .error f =>
      if h : e = f then isTrue (h ▸ rfl) else isFalse (fun he => h (Except.error.inj he))
    | .ok _, .error _ => isFalse (fun he => Except.noConfusion he)
    | .error _, .ok _ => isFalse (fun he => Except.noConfusion he)

/-- Highest positive signed 32-bit value, `maxInt` in the source. -/
def maxInt : Nat := 2147483647

/-- Bootstring parameter `base`. -/
def base : Nat := 36

/-- Bootstring parameter `tMin`. -/
def tMin : Nat := 1

/-- Bootstring parameter `tMax`. -/
def tMax : Nat := 26

/-- Bootstring parameter `skew`. -/
def skew : Nat := 38

/-- Bootstring parameter `damp`. -/
def damp : Nat := 700

/-- Bootstring parameter `initialBias`. -/
def initialBias : Nat := 72

/-- Bootstring parameter `initialN` (0x80). -/
def initialN : Nat := 128

/-- The delimiter code unit, `'-'`. -/
def delimiter : Nat := 45

/-- Convenience shortcut `baseMinusTMin = base - tMin`. -/
def baseMinusTMin : Nat := base - tMin

/-- The function `ucs2decode`: code units to code points, combining a high
surrogate that is immediately followed by a low surrogate and passing every
other unit through unchanged (an unmatched high surrogate is emitted raw and
scanning resumes at the unit that failed to pair). -/
def ucs2decode : List Nat → List Nat
  | [] => []
  | [value] => [value]
  | value :: extra :: rest =>
    if 0xD800 ≤ value ∧ value ≤ 0xDBFF then
      if extra &&& 0xFC00 = 0xDC00 then
        (((value &&& 0x3FF) <<< 10) + (extra &&& 0x3FF) + 0x10000) :: ucs2decode rest
      else
        value :: ucs2decode (extra :: rest)
    else
      value :: ucs2decode (extra :: rest)

/-- UTF-16 code units of one code point, as produced by the built-in
`String.fromCodePoint` for a valid code point (`≤ 0x10FFFF`). -/
def utf16Units (cp : Nat) : List Nat :=
  if cp < 0x10000 then [cp]
  else [0xD800 + (cp - 0x10000) / 0x400, 0xDC00 + (cp - 0x10000) % 0x400]

/-- The built-in `String.fromCodePoint`, applied to a list of code points: it
throws a `RangeError` at the first argument above `0x10FFFF`, otherwise
concatenates the UTF-16 units of the arguments. -/
def fromCodePoint : List Nat → Except Failure (List Nat)
  | [] => .ok []
  | cp :: rest =>
    if cp > 0x10FFFF then .error (.invalidCodePoint cp)
    else
      match fromCodePoint rest with
      | .error e => .error e
      | .ok units => .ok (utf16Units cp ++ units)

/-- The function `ucs2encode` (`punycode.ucs2.encode`):
`String.fromCodePoint(...codePoints)`. -/
def ucs2encode (codePoints : List Nat) : Except Failure (List Nat) :=
  fromCodePoint codePoints

/-- The function `basicToDigit`: digit value of a basic code point, or `base`
if the code point represents no digit. -/
def basicToDigit (codePoint : Nat) : Nat :=
  if 0x30 ≤ codePoint ∧ codePoint < 0x3A then 26 + (codePoint - 0x30)
  else if 0x41 ≤ codePoint ∧ codePoint < 0x5B then codePoint - 0x41
  else if 0x61 ≤ codePoint ∧ codePoint < 0x7B then codePoint - 0x61
  else base

/-- The function `digitToBasic`: basic code point of a digit.  The library only
ever passes `flag = 0` (lowercase forms). -/
def digitToBasic (digit flag : Nat) : Nat :=
  digit + 22 + 75 * (if digit < 26 then 1 else 0) - (if flag ≠ 0 then 32 else 0)

/-- The scaling loop inside `adapt`: divide by `baseMinusTMin` while the value
exceeds `baseMinusTMin * tMax / 2`, counting `base` per round into `k`.  The
first argument is an iteration bound that keeps the recursion structural (and
hence kernel-evaluable); since each round divides `delta` by 35, any bound
`≥ delta` is enough, and `adaptLoop_bound` shows the exact value used is then
irrelevant. -/
def adaptLoop : Nat → Nat → Nat → Nat × Nat
  | 0, delta, k => (delta, k)
  | bound + 1, delta, k =>
    if baseMinusTMin * tMax / 2 < delta then
      adaptLoop bound (delta / baseMinusTMin) (k + base)
    else (delta, k)

/-- The bias adaptation function `adapt` of RFC 3492 §3.4, as implemented. -/
def adapt (delta numPoints : Nat) (firstTime : Bool) : Nat :=
  let d1 := if firstTime then delta / damp else delta / 2
  let d2 := d1 + d1 / numPoints
  let p := adaptLoop d2 d2 0
  p.2 + (baseMinusTMin + 1) * p.1 / (p.1 + skew)

/-- The threshold `t` used in both `decode` and `encode`:
`k <= bias ? tMin : (k >= bias + tMax ? tMax : k - bias)`. -/
def thresholdOf (k bias : Nat) : Nat :=
  if k ≤ bias then tMin else if bias + tMax ≤ k then tMax else k - bias

/-- The inner digit loop of `decode`: reads one generalized variable-length
integer starting from accumulator `i` with weight `w` at position `k`,
returning the new accumulator and the remaining input. -/
def decodeVLI : List Nat → Nat → Nat → Nat → Nat → Except Failure (Nat × List Nat)
  | [], _, _, _, _ => .error (.puny .invalidInput)
  | c :: rest, i, w, k, bias =>
    let digit := basicToDigit c
    if base ≤ digit then .error (.puny .invalidInput)
    else if (maxInt - i) / w < digit then .error (.puny .overflow)
    else
      let i' := i + digit * w
      let t := thresholdOf k bias
      if digit < t then .ok (i', rest)
      else if maxInt / (base - t) < w then .error (.puny .overflow)
      else decodeVLI rest i' (w * (base - t)) (k + base) bias

/-- The main decoding loop of `decode`: repeatedly read one variable-length
integer, adapt the bias, advance `n`, and insert the code point `n` at
position `i % out` of the output.  The first argument is an iteration bound
making the recursion structural: every round consumes at least one digit
(`decodeVLI_length`), so any bound `≥ digits.length` is enough
(`decodeLoop_bound`), and `decode` passes `digits.length`.  The value of the
exhausted-bound branch is arbitrary (unreachable for a sufficient bound). -/
def decodeLoop : Nat → List Nat → Nat → Nat → Nat → List Nat → Except Failure (List Nat)
  | _, [], _, _, _, output => .ok output
  | 0, _ :: _, _, _, _, _ => .error (.puny .invalidInput)
  | bound + 1, c :: digits, i, n, bias, output =>
    match decodeVLI (c :: digits) i 1 base bias with
    | .error e => .error e
    | .ok (i', rest) =>
      let out := output.length + 1
      let bias' := adapt (i' - i) out (i = 0)
      if maxInt - n < i' / out then .error (.puny .overflow)
      else
        decodeLoop bound rest (i' % out + 1) (n + i' / out) bias'
          (output.insertIdx (i' % out) (n + i' / out))

/-- Index of the last occurrence of `a`, or `none` when `a` does not occur
(models `Array.prototype.lastIndexOf`, with `none` for `-1`). -/
def lastIdxOf (a : Nat) : List Nat → Option Nat
  | [] => none
  | c :: rest =>
    match lastIdxOf a rest with
    | some j => some (j + 1)
    | none => if c = a then some 0 else none

/-- The function `decode` up to but not including the final
`String.fromCodePoint` call: split at the last delimiter, copy the basic code
points (failing with `not-basic` if one is `≥ 0x80`), and run the main
decoding loop; the result is the decoded code point sequence. -/
def decodeCodePoints (input : List Nat) : Except Failure (List Nat) :=
  let basic := (lastIdxOf delimiter input).getD 0
  if (input.take basic).any (fun c => 0x80 ≤ c) then .error (.puny .notBasic)
  else
    let digits := input.drop (if 0 < basic then basic + 1 else 0)
    decodeLoop digits.length digits 0 initialN initialBias (input.take basic)

/-- The function `decode` on code-unit lists: the decoded code points,
converted back to a string by `String.fromCodePoint`. -/
def decode (input : List Nat) : Except Failure (List Nat) :=
  match decodeCodePoints input with
  | .error e => .error e
  | .ok output => fromCodePoint output

/-- Digits emitted by the inner `for (let k = base; ; k += base)` loop of
`encode` for the value `q` with the given `bias`, starting at digit position
`k` (the source starts at `k = base`).  The first argument is an iteration
bound keeping the recursion structural: `q` strictly decreases each round
(the divisor `base - t` is at least 10), so any bound `> q` is enough
(`encodeVLI_bound`); the exhausted-bound value is arbitrary and unreachable
for a sufficient bound. -/
def encodeVLI : Nat → Nat → Nat → Nat → List Nat
  | 0, _, _, _ => []
  | bound + 1, q, bias, k =>
    let t := thresholdOf k bias
    if q < t then [digitToBasic q 0]
    else
      digitToBasic (t + (q - t) % (base - t)) 0 ::
        encodeVLI bound ((q - t) / (base - t)) bias (k + base)

/-- Number of elements of `l` that are `< n`. -/
def countLt (l : List Nat) (n : Nat) : Nat := (l.filter (fun c => c < n)).length

/-- Number of occurrences of `n` in `l`. -/
def countEq (l : List Nat) (n : Nat) : Nat := (l.filter (fun c => c = n)).length

/-- One pass of the main `encode` loop over the whole input (the inner
`for (const currentValue of inputArray)` at lines 335-360): `n` is the current
code point value `m`; basic values bump `delta` (overflow-checked), and each
occurrence of `n` emits `delta` as a variable-length integer, adapts the bias
and counts one more handled code point. -/
def encodePass (n bl : Nat) :
    List Nat → Nat → Nat → Nat → List Nat → Except Failure (Nat × Nat × Nat × List Nat)
  | [], delta, bias, handled, acc => .ok (delta, bias, handled, acc)
  | c :: rest, delta, bias, handled, acc =>
    if c < n then
      if maxInt < delta + 1 then .error (.puny .overflow)
      else encodePass n bl rest (delta + 1) bias handled acc
    else if c = n then
      encodePass n bl rest 0 (adapt delta (handled + 1) (handled = bl)) (handled + 1)
        (acc ++ encodeVLI (delta + 1) delta bias base)
    else
      encodePass n bl rest delta bias handled acc

/-- The scan for the next code point value `m ≥ n`
(lines 318-323 of the source): a fold starting from `maxInt`. -/
def findMin (cps : List Nat) (n : Nat) : Nat :=
  cps.foldl (fun m c => if n ≤ c ∧ c < m then c else m) maxInt

/-- The main `encode` loop (lines 315-364): as long as not every code point has
been handled, find the next value `m`, advance `delta` (overflow-checked), run
one pass over the input, then increment `delta` and `n`.  The third argument
is an iteration bound keeping the recursion structural: on code points coming
from `ucs2decode` of a string, every round handles at least one code point
(the minimum `m` is then always present in the input), so `cps.length + 1`
rounds are enough; the exhausted-bound branch is unreachable for such inputs
and its value is fixed arbitrarily. -/
def encodeLoop (cps : List Nat) (bl : Nat) :
    Nat → Nat → Nat → Nat → Nat → List Nat → Except Failure (List Nat)
  | 0, _, _, _, _, _ => .error (.puny .overflow)
  | bound + 1, n, delta, bias, handled, acc =>
    if handled < cps.length then
      let m := findMin cps n
      if (maxInt - delta) / (handled + 1) < m - n then .error (.puny .overflow)
      else
        match encodePass m bl cps (delta + (m - n) * (handled + 1)) bias handled acc with
        | .error e => .error e
        | .ok (delta2, bias2, handled2, acc2) =>
          encodeLoop cps bl bound (m + 1) (delta2 + 1) bias2 handled2 acc2
    else .ok acc

/-- The function `encode` on code-unit lists: convert to code points, copy the
basic code points (plus a delimiter when there was at least one), and run the
main loop. -/
def encode (input : List Nat) : Except Failure (List Nat) :=
  let cps := ucs2decode input
  let basics := cps.filter (fun c => c < 0x80)
  encodeLoop cps basics.length (cps.length + 1) initialN 0 initialBias basics.length
    (basics ++ if 0 < basics.length then [delimiter] else [])

/-- The built-in `String.prototype.split` with a one-character separator,
on code-unit lists. -/
def jsSplit (sep : Nat) : List Nat → List (List Nat)
  | [] => [[]]
  | c :: rest =>
    match jsSplit sep rest with
    | [] => [[]]
    | p :: ps => if c = sep then [] :: p :: ps else (c :: p) :: ps

/-- The `Array.prototype.join('.')`-style join with a one-unit separator. -/
def joinSep (sep : Nat) : List (List Nat) → List Nat
  | [] => []
  | [p] => p
  | p :: ps => p ++ sep :: joinSep sep ps

/-- The replacement `domain.replace(regexSeparators, '\x2E')`: every RFC 3490
separator (U+002E, U+3002, U+FF0E, U+FF61) becomes U+002E. -/
def normalizeSeps (domain : List Nat) : List Nat :=
  domain.map fun c =>
    if c = 0x2E ∨ c = 0x3002 ∨ c = 0xFF0E ∨ c = 0xFF61 then 0x2E else c

/-- The function `map` of the source: it iterates with `while (length--)`, so
the callback runs on the LAST element first; with a throwing callback the
rightmost failing element wins. -/
def mapRev (f : List Nat → Except Failure (List Nat)) :
    List (List Nat) → Except Failure (List (List Nat))
  | [] => .ok []
  | l :: ls =>
    match mapRev f ls with
    | .error e => .error e
    | .ok rs =>
      match f l with
      | .error e => .error e
      | .ok r => .ok (r :: rs)

/-- The per-label part of `mapDomain` (lines 73-76): normalize the separators,
split into labels, transform each label with the callback, and rejoin with
`'.'`. -/
def processLabels (dom : List Nat) (f : List Nat → Except Failure (List Nat)) :
    Except Failure (List Nat) :=
  match mapRev f (jsSplit 0x2E (normalizeSeps dom)) with
  | .error e => .error e
  | .ok labels => .ok (joinSep 0x2E labels)

/-- The function `mapDomain`: split once on `'@'` (keeping the part up to and
including the first `'@'` untouched and continuing with `parts[1]` only,
which drops any later `'@'` parts), then process the labels of the rest. -/
def mapDomain (domain : List Nat) (f : List Nat → Except Failure (List Nat)) :
    Except Failure (List Nat) :=
  let parts := jsSplit 64 domain
  let pre : List Nat × List Nat :=
    match parts with
    | p0 :: p1 :: _ => (p0 ++ [64], p1)
    | _ => ([], domain)
  match processLabels pre.2 f with
  | .error e => .error e
  | .ok rest => .ok (pre.1 ++ rest)

/-- One UTF-16 code unit under the built-in `String.prototype.toLowerCase`
(the Unicode Default Case Conversion), projected onto what `decode` — the only
consumer of the lowercased string in this library — can observe.  The
mappings whose output contains an ASCII unit are modeled exactly, and by
UnicodeData.txt and SpecialCasing.txt they are precisely these three: the
letters `A`-`Z` map to `a`-`z`; U+0130 (LATIN CAPITAL LETTER I WITH DOT
ABOVE) maps to `i` followed by U+0307, the single length-changing lowercase
mapping in Unicode; and U+212A (KELVIN SIGN) maps to `k`.  All other ASCII
units are fixed points of `toLowerCase`, also modeled exactly.  Every
remaining unit is mapped to itself, where the real mapping sends non-ASCII
code points to non-ASCII code points of the same UTF-16 length (the one
context-sensitive rule, final sigma, chooses between U+03C2 and U+03C3, both
non-ASCII; supplementary-plane code points map to supplementary-plane code
points, two surrogate units to two surrogate units; and no lowercase mapping
produces U+002D).  `decode` cannot distinguish two inputs of equal length
that agree on every unit below 0x80 — this invariance is the theorem
`decode_units_congr` below — so `decode` composed with this model is
extensionally the program's `decode(string.toLowerCase())`. -/
def lowerUnit (c : Nat) : List Nat :=
  if 0x41 ≤ c ∧ c ≤ 0x5A then [c + 32]
  else if c = 0x130 then [0x69, 0x307]
  else if c = 0x212A then [0x6B]
  else [c]

/-- The built-in `String.prototype.toLowerCase` on code-unit lists, unit by
unit (see `lowerUnit` for the fidelity argument). -/
def toLowerCase : List Nat → List Nat
  | [] => []
  | c :: rest => lowerUnit c ++ toLowerCase rest

/-- The code-unit list of the string `"xn--"`. -/
def xnTag : List Nat := [0x78, 0x6E, 0x2D, 0x2D]

/-- The per-label transform of `toUnicode`: `regexPunycode` matches the label
against the pattern `xn--` anchored at the start, case sensitively (the regex
has no ignore-case flag), gating `decode(string.slice(4).toLowerCase())`. -/
def toUnicodeLabel (s : List Nat) : Except Failure (List Nat) :=
  if s.take 4 = xnTag then decode (toLowerCase (s.drop 4)) else .ok s

/-- The function `toUnicode`. -/
def toUnicode (input : List Nat) : Except Failure (List Nat) :=
  mapDomain input toUnicodeLabel

/-- The per-label transform of `toASCII`: `regexNonASCII` (a code unit outside
the range 0 to 0x7F) gates `'xn--' + encode(string)`. -/
def toASCIILabel (s : List Nat) : Except Failure (List Nat) :=
  if s.any (fun c => 0x7F < c) then
    match encode s with
    | .error e => .error e
    | .ok r => .ok (xnTag ++ r)
  else .ok s

/-- The function `toASCII`. -/
def toASCII (input : List Nat) : Except Failure (List Nat) :=
  mapDomain input toASCIILabel

/-! Claim-level vocabulary. -/

/-- Code-unit list of a string literal (for concrete test inputs). -/
def units (s : String) : List Nat := s.data.map Char.toNat

/-- A list of code units is a well-formed UTF-16 sequence: no lone surrogate
code units (every high surrogate is immediately followed by a low surrogate,
and every low surrogate is immediately preceded by a high surrogate). -/
def noLoneSurrogates : List Nat → Bool
  | [] => true
  | [u] => decide (u < 0xD800 ∨ 0xDFFF < u)
  | u :: v :: rest =>
    if 0xD800 ≤ u ∧ u ≤ 0xDBFF then
      decide (0xDC00 ≤ v ∧ v ≤ 0xDFFF) && noLoneSurrogates rest
    else
      decide (u < 0xD800 ∨ 0xDFFF < u) && noLoneSurrogates (v :: rest)

/-- A lowercase Bootstring digit character: `a`-`z` or `0`-`9`. -/
def isLowerDigit (c : Nat) : Bool :=
  (decide (0x61 ≤ c) && decide (c ≤ 0x7A)) || (decide (0x30 ≤ c) && decide (c ≤ 0x39))

/-- A valid Bootstring string in the sense of the specification: an ASCII-only
string over the digit alphabet `a-z0-9` together with the `'-'` delimiter. -/
def validBootstring (p : List Nat) : Bool :=
  p.all fun c => isLowerDigit c || decide (c = delimiter)

/-- The part of the input that `mapDomain` treats as the domain: `parts[1]`
when the input contains an `'@'`, the whole input otherwise. -/
def domainPart (input : List Nat) : List Nat :=
  match jsSplit 64 input with
  | _ :: p1 :: _ => p1
  | _ => input

/-- The labels that `mapDomain` feeds to its callback. -/
def inputLabels (input : List Nat) : List (List Nat) :=
  jsSplit 0x2E (normalizeSeps (domainPart input))

/-- The counterexample string for the encode round trip: 1927 copies of `'a'`
followed by the surrogate pair of U+10FFFF. -/
def c1str : List Nat := List.replicate 1927 97 ++ [0xDBFF, 0xDFFF]

/-- Specification device for the round-trip proof: the subsequence of `l`
consisting of every element below `m` together with the first `r` occurrences
of `m` — exactly the set of code points the encoder has handled when it has
emitted `r` occurrences of the current value `m`, in input order (which is the
order in which the decoder's insertions arrange them). -/
def keepB : List Nat → Nat → Nat → List Nat
  | [], _, _ => []
  | c :: rest, m, r =>
    if c < m then c :: keepB rest m r
    else if c = m ∧ 0 < r then c :: keepB rest m (r - 1)
    else keepB rest m r

/-! Theorems: general lemmas about the embedding, then one theorem (with
counterexample and witness where applicable) per specification claim. -/

theorem adaptLoop_bound : ∀ {b1 b2 delta k : Nat}, delta ≤ b1 → delta ≤ b2 →
    adaptLoop b1 delta k = adaptLoop b2 delta k := by
  intro b1
  induction b1 with
  | zero =>
    intro b2 delta k h1 h2
    match b2 with
    | 0 => rfl
    | b2 + 1 =>
      have : delta = 0 := Nat.le_zero.1 h1
      subst this
      simp [adaptLoop]
  | succ b1 ih =>
    intro b2 delta k h1 h2
    match b2 with
    | 0 =>
      have : delta = 0 := Nat.le_zero.1 h2
      subst this
      simp [adaptLoop]
    | b2 + 1 =>
      simp only [adaptLoop]
      split
      · rename_i hgt
        have hlt : delta / baseMinusTMin < delta :=
          Nat.div_lt_self (by omega) (by decide)
        exact ih (by omega) (by omega)
      · rfl

theorem decodeVLI_length {digits : List Nat} {i w k bias i' rest} :
    decodeVLI digits i w k bias = .ok (i', rest) → rest.length < digits.length := by
  induction digits generalizing i w k with
  | nil => intro h; simp [decodeVLI] at h
  | cons c cs ih =>
    intro h
    simp only [decodeVLI] at h
    split at h
    · exact absurd h (by simp)
    · split at h
      · exact absurd h (by simp)
      · split at h
        · simp only [Except.ok.injEq, Prod.mk.injEq] at h
          obtain ⟨-, h2⟩ := h
          subst h2
          exact Nat.lt_succ_self _
        · split at h
          · exact absurd h (by simp)
          · exact Nat.lt_trans (ih h) (Nat.lt_succ_self _)

theorem decodeLoop_bound : ∀ {b1 b2 : Nat} {digits : List Nat} {i n bias output},
    digits.length ≤ b1 → digits.length ≤ b2 →
    decodeLoop b1 digits i n bias output = decodeLoop b2 digits i n bias output := by
  intro b1
  induction b1 with
  | zero =>
    intro b2 digits i n bias output h1 h2
    match digits, b2 with
    | [], 0 => rfl
    | [], b2 + 1 => rfl
    | c :: ds, b2 => simp at h1
  | succ b1 ih =>
    intro b2 digits i n bias output h1 h2
    match digits, b2 with
    | [], 0 => rfl
    | [], b2 + 1 => rfl
    | c :: ds, 0 => simp at h2
    | c :: ds, b2 + 1 =>
      simp only [decodeLoop]
      match hv : decodeVLI (c :: ds) i 1 base bias with
      | .error e => rfl
      | .ok (i', rest) =>
        have hlen := decodeVLI_length hv
        simp only [List.length_cons] at h1 h2 hlen
        by_cases hc : maxInt - n < i' / (output.length + 1)
        · simp only [if_pos hc]
        · simp only [if_neg hc]
          apply ih
          · omega
          · omega

theorem thresholdOf_pos (k bias : Nat) : 1 ≤ thresholdOf k bias := by
  unfold thresholdOf tMin tMax
  split
  · exact Nat.le_refl 1
  · split
    · decide
    · omega

theorem thresholdOf_le (k bias : Nat) : thresholdOf k bias ≤ tMax := by
  unfold thresholdOf tMin tMax
  split
  · decide
  · split
    · exact Nat.le_refl _
    · omega

theorem encodeVLI_bound : ∀ {b1 b2 q bias k : Nat}, q < b1 → q < b2 →
    encodeVLI b1 q bias k = encodeVLI b2 q bias k := by
  intro b1
  induction b1 with
  | zero => intro b2 q bias k h1 h2; omega
  | succ b1 ih =>
    intro b2 q bias k h1 h2
    match b2 with
    | 0 => omega
    | b2 + 1 =>
      simp only [encodeVLI]
      split
      · rfl
      · rename_i hge
        have ht := thresholdOf_pos k bias
        have hq : 1 ≤ q := by omega
        have hd : (q - thresholdOf k bias) / (base - thresholdOf k bias) ≤
            q - thresholdOf k bias := Nat.div_le_self _ _
        apply congrArg
        apply ih
        · omega
        · omega

theorem countLt_nil {n : Nat} : countLt [] n = 0 := rfl

theorem countEq_nil {n : Nat} : countEq [] n = 0 := rfl

theorem countLt_cons {a n : Nat} {cs : List Nat} :
    countLt (a :: cs) n = countLt cs n + if a < n then 1 else 0 := by
  by_cases h : a < n
  · simp [countLt, List.filter_cons, h]
  · simp [countLt, List.filter_cons, h]

theorem countEq_cons {a n : Nat} {cs : List Nat} :
    countEq (a :: cs) n = countEq cs n + if a = n then 1 else 0 := by
  by_cases h : a = n
  · simp [countEq, List.filter_cons, h]
  · simp [countEq, List.filter_cons, h]

theorem encodePass_handled {n bl : Nat} {scan : List Nat} {delta bias handled acc d' b' h' a'} :
    encodePass n bl scan delta bias handled acc = .ok (d', b', h', a') →
    h' = handled + countEq scan n := by
  induction scan generalizing delta bias handled acc with
  | nil =>
    intro h
    simp only [encodePass, Except.ok.injEq, Prod.mk.injEq] at h
    rw [countEq_nil]
    omega
  | cons c cs ih =>
    intro h
    simp only [encodePass] at h
    by_cases hc : c < n
    · simp only [if_pos hc] at h
      split at h
      · exact absurd h (by simp)
      · have hne : ¬(c = n) := by omega
        rw [countEq_cons, if_neg hne]
        have := ih h
        omega
    · simp only [if_neg hc] at h
      by_cases he : c = n
      · simp only [if_pos he] at h
        rw [countEq_cons, if_pos he]
        have := ih h
        omega
      · simp only [if_neg he] at h
        rw [countEq_cons, if_neg he]
        have := ih h
        omega

theorem findMin_le_aux {cps : List Nat} {n m0 : Nat} :
    cps.foldl (fun m c => if n ≤ c ∧ c < m then c else m) m0 ≤ m0 := by
  induction cps generalizing m0 with
  | nil => exact Nat.le_refl _
  | cons c cs ih =>
    simp only [List.foldl]
    split
    · exact Nat.le_trans ih (by omega)
    · exact ih

theorem findMin_le {cps : List Nat} {n m0 c : Nat} (hc : c ∈ cps) (hn : n ≤ c) :
    cps.foldl (fun m c => if n ≤ c ∧ c < m then c else m) m0 ≤ c := by
  induction cps generalizing m0 with
  | nil => cases hc
  | cons a cs ih =>
    simp only [List.foldl]
    rcases List.mem_cons.1 hc with h | h
    · subst h
      by_cases hca : n ≤ c ∧ c < m0
      · rw [if_pos hca]
        exact findMin_le_aux
      · rw [if_neg hca]
        exact Nat.le_trans findMin_le_aux (by omega)
    · exact ih h

theorem findMin_mem {cps : List Nat} {n m0 : Nat} :
    cps.foldl (fun m c => if n ≤ c ∧ c < m then c else m) m0 = m0 ∨
      (cps.foldl (fun m c => if n ≤ c ∧ c < m then c else m) m0 ∈ cps ∧
        n ≤ cps.foldl (fun m c => if n ≤ c ∧ c < m then c else m) m0) := by
  induction cps generalizing m0 with
  | nil => exact Or.inl rfl
  | cons a cs ih =>
    simp only [List.foldl]
    split
    · rcases @ih a with h | ⟨h1, h2⟩
      · exact Or.inr ⟨by simp [h], by omega⟩
      · exact Or.inr ⟨by simp [h1], h2⟩
    · rcases @ih m0 with h | ⟨h1, h2⟩
      · exact Or.inl h
      · exact Or.inr ⟨by simp [h1], h2⟩

theorem countLt_lt_length {cps : List Nat} {n : Nat} (h : countLt cps n < cps.length) :
    ∃ c ∈ cps, n ≤ c := by
  by_contra hc
  push_neg at hc
  have : cps.filter (fun c => c < n) = cps := by
    apply List.filter_eq_self.2
    intro a ha
    simp only [decide_eq_true_eq]
    exact hc a ha
  unfold countLt at h
  rw [this] at h
  exact Nat.lt_irrefl _ h

theorem findMin_spec {cps : List Nat} {n : Nat} (hb : ∀ c ∈ cps, c < 0x110000)
    (hex : ∃ c ∈ cps, n ≤ c) :
    findMin cps n ∈ cps ∧ n ≤ findMin cps n ∧
      ∀ c ∈ cps, n ≤ c → findMin cps n ≤ c := by
  obtain ⟨c, hc, hnc⟩ := hex
  have hle := @findMin_le cps n maxInt c hc hnc
  rcases @findMin_mem cps n maxInt with h | ⟨h1, h2⟩
  · exfalso
    have := hb c hc
    unfold findMin at hle
    rw [h] at hle
    unfold maxInt at hle
    omega
  · exact ⟨h1, h2, fun c' hc' hnc' => findMin_le hc' hnc'⟩

theorem countLt_next {cps : List Nat} {n m : Nat} (hnm : n ≤ m)
    (hmin : ∀ c ∈ cps, n ≤ c → m ≤ c) :
    countLt cps (m + 1) = countLt cps n + countEq cps m := by
  induction cps with
  | nil => simp [countLt_nil, countEq_nil]
  | cons a cs ih =>
    have ihs := ih (fun c hc h => hmin c (List.mem_cons_of_mem _ hc) h)
    have ha := hmin a (List.mem_cons_self a cs)
    rw [countLt_cons, countLt_cons, countEq_cons]
    by_cases h1 : a < n
    · have h2 : a < m + 1 := by omega
      have h3 : ¬(a = m) := by omega
      rw [if_pos h1, if_pos h2, if_neg h3]
      omega
    · have h4 : m ≤ a := ha (by omega)
      by_cases h5 : a = m
      · have h6 : a < m + 1 := by omega
        rw [if_neg h1, if_pos h6, if_pos h5]
        omega
      · have h6 : ¬(a < m + 1) := by omega
        rw [if_neg h1, if_neg h6, if_neg h5]
        omega

theorem ucs2decode_lt : ∀ {input : List Nat}, (∀ u ∈ input, u < 0x10000) →
    ∀ c ∈ ucs2decode input, c < 0x110000 := by
  intro input
  induction input using ucs2decode.induct with
  | case1 => intro _ c hc; simp [ucs2decode] at hc
  | case2 value =>
    intro h c hc
    simp only [ucs2decode, List.mem_singleton] at hc
    subst hc
    exact Nat.lt_trans (h c (List.mem_cons_self c [])) (by decide)
  | case3 value extra rest hv he ih =>
    intro h c hc
    simp only [ucs2decode, if_pos hv, if_pos he, List.mem_cons] at hc
    rcases hc with h1 | h1
    · subst h1
      have hval : value &&& 0x3FF ≤ 0x3FF := Nat.and_le_right
      have hex : extra &&& 0x3FF ≤ 0x3FF := Nat.and_le_right
      have hsh : (value &&& 0x3FF) <<< 10 = (value &&& 0x3FF) * 1024 := by
        rw [Nat.shiftLeft_eq]
      have : (value &&& 0x3FF) * 1024 ≤ 0x3FF * 1024 := Nat.mul_le_mul_right _ hval
      omega
    · exact ih (fun u hu => h u (by simp [hu])) c h1
  | case4 value extra rest hv he ih =>
    intro h c hc
    simp only [ucs2decode, if_pos hv, if_neg he, List.mem_cons] at hc
    rcases hc with h1 | h1
    · subst h1
      exact Nat.lt_trans (h c (by simp)) (by decide)
    · exact ih (fun u hu => h u (by simp [List.mem_cons.1 hu])) c h1
  | case5 value extra rest hv ih =>
    intro h c hc
    simp only [ucs2decode, if_neg hv, List.mem_cons] at hc
    rcases hc with h1 | h1
    · subst h1
      exact Nat.lt_trans (h c (by simp)) (by decide)
    · exact ih (fun u hu => h u (by simp [List.mem_cons.1 hu])) c h1

/-! Error-shape lemmas (for the error-taxonomy claim). -/

theorem encodePass_error {n bl : Nat} {scan : List Nat} {delta bias handled acc e} :
    encodePass n bl scan delta bias handled acc = .error e → e = .puny .overflow := by
  induction scan generalizing delta bias handled acc with
  | nil => intro h; simp [encodePass] at h
  | cons c cs ih =>
    intro h
    simp only [encodePass] at h
    split at h
    · split at h
      · simp only [Except.error.injEq] at h
        exact h.symm
      · exact ih h
    · split at h
      · exact ih h
      · exact ih h

theorem encodeLoop_error : ∀ {bound : Nat} {cps : List Nat} {bl n delta bias handled acc e},
    encodeLoop cps bl bound n delta bias handled acc = .error e → e = .puny .overflow := by
  intro bound
  induction bound with
  | zero =>
    intro cps bl n delta bias handled acc e h
    simp only [encodeLoop, Except.error.injEq] at h
    exact h.symm
  | succ bound ih =>
    intro cps bl n delta bias handled acc e h
    simp only [encodeLoop] at h
    split at h
    · split at h
      · simp only [Except.error.injEq] at h
        exact h.symm
      · split at h
        · rename_i heq
          simp only [Except.error.injEq] at h
          subst h
          exact encodePass_error heq
        · exact ih h
    · simp at h

theorem encode_error {input : List Nat} {e : Failure} :
    encode input = .error e → e = .puny .overflow :=
  fun h => encodeLoop_error h

theorem decodeVLI_error {digits : List Nat} {i w k bias e} :
    decodeVLI digits i w k bias = .error e →
    e = .puny .invalidInput ∨ e = .puny .overflow := by
  induction digits generalizing i w k with
  | nil =>
    intro h
    simp only [decodeVLI, Except.error.injEq] at h
    exact Or.inl h.symm
  | cons c cs ih =>
    intro h
    simp only [decodeVLI] at h
    split at h
    · simp only [Except.error.injEq] at h
      exact Or.inl h.symm
    · split at h
      · simp only [Except.error.injEq] at h
        exact Or.inr h.symm
      · split at h
        · simp at h
        · split at h
          · simp only [Except.error.injEq] at h
            exact Or.inr h.symm
          · exact ih h

theorem decodeLoop_error : ∀ {bound : Nat} {digits : List Nat} {i n bias output e},
    decodeLoop bound digits i n bias output = .error e →
    e = .puny .invalidInput ∨ e = .puny .overflow := by
  intro bound
  induction bound with
  | zero =>
    intro digits i n bias output e h
    match digits with
    | [] => simp [decodeLoop] at h
    | c :: ds =>
      simp only [decodeLoop, Except.error.injEq] at h
      exact Or.inl h.symm
  | succ bound ih =>
    intro digits i n bias output e h
    match digits with
    | [] => simp [decodeLoop] at h
    | c :: ds =>
      simp only [decodeLoop] at h
      split at h
      · rename_i heq
        simp only [Except.error.injEq] at h
        subst h
        exact decodeVLI_error heq
      · split at h
        · simp only [Except.error.injEq] at h
          exact Or.inr h.symm
        · exact ih h

theorem fromCodePoint_error : ∀ {cps : List Nat} {e},
    fromCodePoint cps = .error e → ∃ cp, 0x10FFFF < cp ∧ e = .invalidCodePoint cp := by
  intro cps
  induction cps with
  | nil => intro e h; simp [fromCodePoint] at h
  | cons cp rest ih =>
    intro e h
    simp only [fromCodePoint] at h
    split at h
    · rename_i hgt
      simp only [Except.error.injEq] at h
      exact ⟨cp, hgt, h.symm⟩
    · split at h
      · rename_i heq
        simp only [Except.error.injEq] at h
        subst h
        exact ih heq
      · simp at h

theorem decode_error {input : List Nat} {e : Failure} :
    decode input = .error e →
    e = .puny .overflow ∨ e = .puny .notBasic ∨ e = .puny .invalidInput ∨
      ∃ cp, 0x10FFFF < cp ∧ e = .invalidCodePoint cp := by
  intro h
  unfold decode at h
  split at h
  · rename_i heq
    simp only [Except.error.injEq] at h
    subst h
    simp only [decodeCodePoints] at heq
    split at heq
    · simp only [Except.error.injEq] at heq
      exact Or.inr (Or.inl heq.symm)
    · rcases decodeLoop_error heq with h1 | h1
      · exact Or.inr (Or.inr (Or.inl h1))
      · exact Or.inl h1
  · rename_i heq
    exact Or.inr (Or.inr (Or.inr (fromCodePoint_error h)))

theorem mapRev_error {f : List Nat → Except Failure (List Nat)} :
    ∀ {ls : List (List Nat)} {e}, mapRev f ls = .error e → ∃ l ∈ ls, f l = .error e := by
  intro ls
  induction ls with
  | nil => intro e h; simp [mapRev] at h
  | cons l ls ih =>
    intro e h
    simp only [mapRev] at h
    split at h
    · rename_i heq
      simp only [Except.error.injEq] at h
      subst h
      obtain ⟨l', hl', he'⟩ := ih heq
      exact ⟨l', List.mem_cons_of_mem _ hl', he'⟩
    · split at h
      · rename_i heq
        simp only [Except.error.injEq] at h
        subst h
        exact ⟨l, List.mem_cons_self l ls, heq⟩
      · simp at h

theorem mapDomain_error {domain : List Nat} {f : List Nat → Except Failure (List Nat)} {e} :
    mapDomain domain f = .error e → ∃ l, f l = .error e := by
  intro h
  simp only [mapDomain] at h
  split at h
  · rename_i e' heq
    simp only [Except.error.injEq] at h
    subst h
    simp only [processLabels] at heq
    split at heq
    · rename_i heq2
      simp only [Except.error.injEq] at heq
      subst heq
      obtain ⟨l, -, hl⟩ := mapRev_error heq2
      exact ⟨l, hl⟩
    · simp at heq
  all_goals simp at h

theorem toUnicode_error {input : List Nat} {e : Failure} :
    toUnicode input = .error e → ∃ s, decode s = .error e := by
  intro h
  obtain ⟨l, hl⟩ := mapDomain_error h
  unfold toUnicodeLabel at hl
  split at hl
  · exact ⟨toLowerCase (l.drop 4), hl⟩
  · simp at hl

theorem toASCII_error {input : List Nat} {e : Failure} :
    toASCII input = .error e → ∃ s, encode s = .error e := by
  intro h
  obtain ⟨l, hl⟩ := mapDomain_error h
  unfold toASCIILabel at hl
  split at hl
  · split at hl
    · rename_i heq
      simp only [Except.error.injEq] at hl
      subst hl
      exact ⟨l, heq⟩
    · simp at hl
  · simp at hl

/-! Lemmas about `jsSplit`. -/

theorem jsSplit_ne_nil {sep : Nat} : ∀ {l : List Nat}, jsSplit sep l ≠ [] := by
  intro l
  cases l with
  | nil => simp [jsSplit]
  | cons c rest =>
    simp only [jsSplit]
    cases h : jsSplit sep rest with
    | nil => simp
    | cons p ps => by_cases hcs : c = sep <;> simp [hcs]

theorem jsSplit_no_sep {sep : Nat} : ∀ {l : List Nat}, sep ∉ l → jsSplit sep l = [l] := by
  intro l
  induction l with
  | nil => intro _; rfl
  | cons c rest ih =>
    intro h
    have hc : c ≠ sep := fun he => h (he ▸ List.mem_cons_self c rest)
    have hrest : sep ∉ rest := fun he => h (List.mem_cons_of_mem _ he)
    simp only [jsSplit, ih hrest]
    rw [if_neg hc]

theorem jsSplit_append_sep {sep : Nat} : ∀ {a rest : List Nat}, sep ∉ a →
    jsSplit sep (a ++ sep :: rest) = a :: jsSplit sep rest := by
  intro a
  induction a with
  | nil =>
    intro rest _
    simp only [List.nil_append, jsSplit]
    match h : jsSplit sep rest with
    | [] => exact absurd h jsSplit_ne_nil
    | p :: ps => simp
  | cons c a' ih =>
    intro rest h
    have hc : c ≠ sep := fun he => h (he ▸ List.mem_cons_self c a')
    have ha : sep ∉ a' := fun he => h (List.mem_cons_of_mem _ he)
    rw [List.cons_append]
    simp only [jsSplit]
    rw [ih ha]
    simp [hc]

theorem joinSep_cons_cons {sep c : Nat} {p : List Nat} {ps : List (List Nat)} :
    joinSep sep ((c :: p) :: ps) = c :: joinSep sep (p :: ps) := by
  cases ps with
  | nil => rfl
  | cons q qs => rfl

theorem joinSep_jsSplit {sep : Nat} : ∀ {l : List Nat}, joinSep sep (jsSplit sep l) = l := by
  intro l
  induction l with
  | nil => rfl
  | cons c rest ih =>
    simp only [jsSplit]
    cases h : jsSplit sep rest with
    | nil => exact absurd h jsSplit_ne_nil
    | cons p ps =>
      rw [h] at ih
      dsimp only
      by_cases hc : c = sep
      · subst hc
        simp only [if_pos rfl]
        show c :: joinSep c (p :: ps) = c :: rest
        rw [ih]
      · rw [if_neg hc, joinSep_cons_cons, ih]

theorem mapRev_id {f : List Nat → Except Failure (List Nat)} :
    ∀ {ls : List (List Nat)}, (∀ l ∈ ls, f l = .ok l) → mapRev f ls = .ok ls := by
  intro ls
  induction ls with
  | nil => intro _; rfl
  | cons l ls ih =>
    intro h
    simp only [mapRev, ih (fun l' hl' => h l' (List.mem_cons_of_mem _ hl')),
      h l (List.mem_cons_self l ls)]

theorem jsSplit_mem_subset {sep : Nat} :
    ∀ {l : List Nat} {p : List Nat}, p ∈ jsSplit sep l → ∀ c ∈ p, c ∈ l := by
  intro l
  induction l with
  | nil =>
    intro p hp c hc
    simp only [jsSplit, List.mem_singleton] at hp
    subst hp
    cases hc
  | cons a rest ih =>
    intro p hp c hc
    simp only [jsSplit] at hp
    cases h : jsSplit sep rest with
    | nil => exact absurd h jsSplit_ne_nil
    | cons q qs =>
      rw [h] at hp
      dsimp only at hp
      by_cases ha : a = sep
      · rw [if_pos ha] at hp
        rcases List.mem_cons.1 hp with h1 | h1
        · subst h1; cases hc
        · exact List.mem_cons_of_mem _ (ih (h ▸ h1) c hc)
      · rw [if_neg ha] at hp
        rcases List.mem_cons.1 hp with h1 | h1
        · subst h1
          rcases List.mem_cons.1 hc with h2 | h2
          · exact h2 ▸ List.mem_cons_self a rest
          · exact List.mem_cons_of_mem _ (ih (h ▸ List.mem_cons_self q qs) c h2)
        · exact List.mem_cons_of_mem _ (ih (h ▸ List.mem_cons_of_mem _ h1) c hc)

theorem countEq_le_one_split {x : List Nat} {a : Nat} (h : countEq x a ≤ 1) :
    a ∉ x ∨ ∃ u v, x = u ++ a :: v ∧ a ∉ u ∧ a ∉ v := by
  induction x with
  | nil => exact Or.inl (by simp)
  | cons c cs ih =>
    rw [countEq_cons] at h
    by_cases hc : c = a
    · subst hc
      rw [if_pos rfl] at h
      have hcs : countEq cs c = 0 := by omega
      have hnotin : c ∉ cs := by
        intro hmem
        have : c ∈ cs.filter (fun d => d = c) := List.mem_filter.2 ⟨hmem, by simp⟩
        have := List.length_pos_of_mem this
        unfold countEq at hcs
        omega
      exact Or.inr ⟨[], cs, rfl, by simp, hnotin⟩
    · rw [if_neg hc] at h
      rcases ih (by omega) with h1 | ⟨u, v, he, hu, hv⟩
      · exact Or.inl (by simp [hc, h1]; exact fun hca => hc hca.symm)
      · exact Or.inr ⟨c :: u, v, by rw [he]; rfl, by
          simp only [List.mem_cons, not_or]
          exact ⟨fun hca => hc hca.symm, hu⟩, hv⟩

theorem domainPart_no_at {x : List Nat} (h : 64 ∉ x) : domainPart x = x := by
  unfold domainPart
  rw [jsSplit_no_sep h]

theorem domainPart_single_at {u v : List Nat} (hu : 64 ∉ u) (hv : 64 ∉ v) :
    domainPart (u ++ 64 :: v) = v := by
  unfold domainPart
  rw [jsSplit_append_sep hu, jsSplit_no_sep hv]

theorem processLabels_id {dom : List Nat} {f : List Nat → Except Failure (List Nat)}
    (hn : normalizeSeps dom = dom) (hf : ∀ l ∈ jsSplit 0x2E dom, f l = .ok l) :
    processLabels dom f = .ok dom := by
  unfold processLabels
  rw [hn, mapRev_id hf]
  simp only []
  rw [joinSep_jsSplit]

/-- On an input with at most one `'@'` whose domain part is fixed by the
separator normalization, `mapDomain` with a callback that fixes every label
returns the input unchanged. -/
theorem mapDomain_fixed {x : List Nat} {f : List Nat → Except Failure (List Nat)}
    (hat : countEq x 64 ≤ 1) (hn : normalizeSeps (domainPart x) = domainPart x)
    (hf : ∀ l ∈ inputLabels x, f l = .ok l) : mapDomain x f = .ok x := by
  unfold inputLabels at hf
  rcases countEq_le_one_split hat with hno | ⟨u, v, he, hu, hv⟩
  · rw [domainPart_no_at hno] at hn hf
    rw [hn] at hf
    simp only [mapDomain, jsSplit_no_sep hno]
    rw [processLabels_id hn hf]
    simp
  · subst he
    rw [domainPart_single_at hu hv] at hn hf
    rw [hn] at hf
    simp only [mapDomain, jsSplit_append_sep hu, jsSplit_no_sep hv]
    rw [processLabels_id hn hf]
    simp

theorem normalizeSeps_ascii : ∀ {dom : List Nat}, (∀ c ∈ dom, c < 0x80) →
    normalizeSeps dom = dom := by
  intro dom
  induction dom with
  | nil => intro _; rfl
  | cons c cs ih =>
    intro h
    have hc := h c (List.mem_cons_self c cs)
    have h1 : (if c = 0x2E ∨ c = 0x3002 ∨ c = 0xFF0E ∨ c = 0xFF61 then 0x2E else c) = c := by
      by_cases h2 : c = 0x2E
      · simp [h2]
      · have h3 : ¬(c = 0x2E ∨ c = 0x3002 ∨ c = 0xFF0E ∨ c = 0xFF61) := by omega
        rw [if_neg h3]
    simp only [normalizeSeps, List.map_cons] at ih ⊢
    rw [h1, ih (fun d hd => h d (List.mem_cons_of_mem _ hd))]

/-- A character of the output of the digit-emission loop is a basic code point
for some digit value below `base` (always emitted in lowercase form). -/
theorem encodeVLI_chars : ∀ {b q bias k : Nat}, ∀ c ∈ encodeVLI b q bias k,
    ∃ d, d < base ∧ c = digitToBasic d 0 := by
  intro b
  induction b with
  | zero => intro q bias k c hc; simp [encodeVLI] at hc
  | succ b ih =>
    intro q bias k c hc
    simp only [encodeVLI] at hc
    split at hc
    · rename_i hq
      rcases List.mem_singleton.1 hc with h
      subst h
      have := thresholdOf_le k bias
      exact ⟨q, by unfold tMax at this; unfold base; omega, rfl⟩
    · rcases List.mem_cons.1 hc with h | h
      · subst h
        refine ⟨_, ?_, rfl⟩
        have h1 := thresholdOf_pos k bias
        have h2 := thresholdOf_le k bias
        have h3 : (q - thresholdOf k bias) % (base - thresholdOf k bias) <
            base - thresholdOf k bias := Nat.mod_lt _ (by unfold base tMax at *; omega)
        omega
      · exact ih c h

theorem digit_chars_prop : ∀ d, d < base →
    digitToBasic d 0 < 0x80 ∧ digitToBasic d 0 ≠ 46 ∧ digitToBasic d 0 ≠ 64 := by decide

theorem encodePass_chars {n bl : Nat} :
    ∀ {scan : List Nat} {delta bias handled acc d' b' h' a'},
      encodePass n bl scan delta bias handled acc = .ok (d', b', h', a') →
      ∀ c ∈ a', c ∈ acc ∨ (c < 0x80 ∧ c ≠ 46 ∧ c ≠ 64) := by
  intro scan
  induction scan with
  | nil =>
    intro delta bias handled acc d' b' h' a' h c hc
    simp only [encodePass, Except.ok.injEq, Prod.mk.injEq] at h
    obtain ⟨-, -, -, h4⟩ := h
    exact Or.inl (h4 ▸ hc)
  | cons v vs ih =>
    intro delta bias handled acc d' b' h' a' h c hc
    simp only [encodePass] at h
    split at h
    · split at h
      · exact absurd h (by simp)
      · exact ih h c hc
    · split at h
      · rcases ih h c hc with h1 | h1
        · rcases List.mem_append.1 h1 with h2 | h2
          · exact Or.inl h2
          · obtain ⟨d, hd, he⟩ := encodeVLI_chars c h2
            exact Or.inr (he ▸ digit_chars_prop d hd)
        · exact Or.inr h1
      · exact ih h c hc

theorem encodeLoop_chars : ∀ {bound : Nat} {cps : List Nat} {bl n delta bias handled acc r},
    encodeLoop cps bl bound n delta bias handled acc = .ok r →
    ∀ c ∈ r, c ∈ acc ∨ (c < 0x80 ∧ c ≠ 46 ∧ c ≠ 64) := by
  intro bound
  induction bound with
  | zero => intro cps bl n delta bias handled acc r h; simp [encodeLoop] at h
  | succ bound ih =>
    intro cps bl n delta bias handled acc r h c hc
    simp only [encodeLoop] at h
    split at h
    · split at h
      · simp at h
      · split at h
        · simp at h
        · rename_i hpass
          rcases ih h c hc with h1 | h1
          · exact encodePass_chars hpass c h1
          · exact Or.inr h1
    · simp only [Except.ok.injEq] at h
      exact Or.inl (h ▸ hc)

/-- A code point produced by `ucs2decode` that is below the surrogate range is
one of the original code units (surrogate combination only produces values at
least 0x10000). -/
theorem ucs2decode_mem_low : ∀ {s : List Nat} {c : Nat},
    c ∈ ucs2decode s → c < 0xD800 → c ∈ s := by
  intro s
  induction s using ucs2decode.induct with
  | case1 => intro c hc _; simp [ucs2decode] at hc
  | case2 value =>
    intro c hc _
    simp only [ucs2decode] at hc
    exact hc
  | case3 value extra rest hv he ih =>
    intro c hc hlow
    simp only [ucs2decode, if_pos hv, if_pos he, List.mem_cons] at hc
    rcases hc with h | h
    · omega
    · exact List.mem_cons_of_mem _ (List.mem_cons_of_mem _ (ih h hlow))
  | case4 value extra rest hv he ih =>
    intro c hc hlow
    simp only [ucs2decode, if_pos hv, if_neg he, List.mem_cons] at hc
    rcases hc with h | h
    · subst h; omega
    · exact List.mem_cons_of_mem _ (ih h hlow)
  | case5 value extra rest hv ih =>
    intro c hc hlow
    simp only [ucs2decode, if_neg hv, List.mem_cons] at hc
    rcases hc with h | h
    · exact h ▸ List.mem_cons_self value (extra :: rest)
    · exact List.mem_cons_of_mem _ (ih h hlow)

/-- Characters of a successful `encode` output: if the low code units of the
input avoid `'.'` and `'@'`, then the whole output is ASCII and avoids `'.'`
and `'@'` (basic code points are copied from the input; everything else is a
digit character or the `'-'` delimiter). -/
theorem encode_ok_chars {s r : List Nat} (h : encode s = .ok r)
    (hs : ∀ u ∈ s, u < 0x80 → u ≠ 46 ∧ u ≠ 64) :
    ∀ c ∈ r, c < 0x80 ∧ c ≠ 46 ∧ c ≠ 64 := by
  intro c hc
  rcases encodeLoop_chars h c hc with h1 | h1
  · rcases List.mem_append.1 h1 with h2 | h2
    · have hlt : c < 0x80 := by
        have := List.of_mem_filter h2
        simpa using this
      have hmem : c ∈ ucs2decode s := List.mem_of_mem_filter h2
      have hcs : c ∈ s := ucs2decode_mem_low hmem (by omega)
      exact ⟨hlt, hs c hcs hlt⟩
    · split at h2
      · rcases List.mem_singleton.1 h2 with h3
        subst h3
        refine ⟨by decide, by decide, by decide⟩
      · cases h2
  · exact h1

/-- Parts produced by `jsSplit` never contain the separator. -/
theorem jsSplit_parts_no_sep {sep : Nat} :
    ∀ {l : List Nat} {p : List Nat}, p ∈ jsSplit sep l → sep ∉ p := by
  intro l
  induction l with
  | nil =>
    intro p hp
    simp only [jsSplit, List.mem_singleton] at hp
    subst hp
    simp
  | cons a rest ih =>
    intro p hp
    simp only [jsSplit] at hp
    cases h : jsSplit sep rest with
    | nil => exact absurd h jsSplit_ne_nil
    | cons q qs =>
      rw [h] at hp
      dsimp only at hp
      by_cases ha : a = sep
      · rw [if_pos ha] at hp
        rcases List.mem_cons.1 hp with h1 | h1
        · subst h1; simp
        · exact ih (h ▸ h1)
      · rw [if_neg ha] at hp
        rcases List.mem_cons.1 hp with h1 | h1
        · subst h1
          intro hm
          rcases List.mem_cons.1 hm with h2 | h2
          · exact ha h2.symm
          · exact ih (h ▸ List.mem_cons_self q qs) h2
        · exact ih (h ▸ List.mem_cons_of_mem _ h1)

theorem mapRev_ok_members {f : List Nat → Except Failure (List Nat)} :
    ∀ {ls rs : List (List Nat)}, mapRev f ls = .ok rs →
      ∀ r ∈ rs, ∃ l ∈ ls, f l = .ok r := by
  intro ls
  induction ls with
  | nil =>
    intro rs h r hr
    simp only [mapRev, Except.ok.injEq] at h
    subst h
    cases hr
  | cons l ls ih =>
    intro rs h r hr
    simp only [mapRev] at h
    match h1 : mapRev f ls with
    | .error e => rw [h1] at h; simp at h
    | .ok rs' =>
      rw [h1] at h
      match h2 : f l with
      | .error e => rw [h2] at h; simp at h
      | .ok r' =>
        rw [h2] at h
        simp only [Except.ok.injEq] at h
        subst h
        rcases List.mem_cons.1 hr with hx | hx
        · exact ⟨l, List.mem_cons_self l ls, hx ▸ h2⟩
        · obtain ⟨l', hl', he'⟩ := ih h1 r hx
          exact ⟨l', List.mem_cons_of_mem _ hl', he'⟩

theorem mapRev_ok_nil {f : List Nat → Except Failure (List Nat)} :
    ∀ {ls : List (List Nat)}, mapRev f ls = .ok [] → ls = [] := by
  intro ls h
  cases ls with
  | nil => rfl
  | cons l ls' =>
    simp only [mapRev] at h
    split at h
    · simp at h
    · split at h
      · simp at h
      · simp at h

theorem joinSep_mem {sep : Nat} : ∀ {ls : List (List Nat)} {c : Nat},
    c ∈ joinSep sep ls → c = sep ∨ ∃ l ∈ ls, c ∈ l := by
  intro ls
  induction ls with
  | nil => intro c hc; cases hc
  | cons p ps ih =>
    intro c hc
    cases ps with
    | nil =>
      exact Or.inr ⟨p, List.mem_cons_self p [], hc⟩
    | cons q qs =>
      simp only [joinSep, List.mem_append, List.mem_cons] at hc
      rcases hc with h | h | h
      · exact Or.inr ⟨p, List.mem_cons_self p (q :: qs), h⟩
      · exact Or.inl h
      · rcases ih h with h1 | ⟨l, hl, hcl⟩
        · exact Or.inl h1
        · exact Or.inr ⟨l, List.mem_cons_of_mem _ hl, hcl⟩

theorem jsSplit_joinSep {sep : Nat} : ∀ {ls : List (List Nat)}, ls ≠ [] →
    (∀ l ∈ ls, sep ∉ l) → jsSplit sep (joinSep sep ls) = ls := by
  intro ls
  induction ls with
  | nil => intro h _; exact absurd rfl h
  | cons p ps ih =>
    intro _ hs
    cases ps with
    | nil =>
      show jsSplit sep p = [p]
      exact jsSplit_no_sep (hs p (List.mem_cons_self p []))
    | cons q qs =>
      show jsSplit sep (p ++ sep :: joinSep sep (q :: qs)) = p :: q :: qs
      rw [jsSplit_append_sep (hs p (List.mem_cons_self p _)),
        ih (by simp) (fun l hl => hs l (List.mem_cons_of_mem _ hl))]

theorem countEq_zero {l : List Nat} {a : Nat} (h : a ∉ l) : countEq l a = 0 := by
  induction l with
  | nil => rfl
  | cons c cs ih =>
    rw [countEq_cons, ih (fun hm => h (List.mem_cons_of_mem _ hm)),
      if_neg (fun he => h (List.mem_cons.2 (Or.inl he.symm)))]

theorem countEq_append {u v : List Nat} {a : Nat} :
    countEq (u ++ v) a = countEq u a + countEq v a := by
  unfold countEq
  rw [List.filter_append, List.length_append]

theorem domainPart_subset {x : List Nat} {c : Nat} (hc : c ∈ domainPart x) : c ∈ x := by
  unfold domainPart at hc
  revert hc
  cases h : jsSplit 64 x with
  | nil => exact fun hc => hc
  | cons p0 ps =>
    cases ps with
    | nil => exact fun hc => hc
    | cons p1 rest =>
      intro hc
      exact jsSplit_mem_subset (h ▸ List.mem_cons_of_mem _ (List.mem_cons_self p1 rest)) c hc

theorem labels_ascii {x : List Nat} (hascii : ∀ c ∈ x, c < 0x80) :
    ∀ l ∈ inputLabels x, ∀ c ∈ l, c < 0x80 := by
  intro l hl c hc
  unfold inputLabels at hl
  have hdom : ∀ d ∈ domainPart x, d < 0x80 := fun d hd => hascii d (domainPart_subset hd)
  rw [normalizeSeps_ascii hdom] at hl
  exact hdom c (jsSplit_mem_subset hl c hc)

/-- Structure of a successful `mapDomain` result: the labels are transformed
by the callback (in reverse order of evaluation) and rejoined, with the
original local part and `'@'` reattached when the input contained an `'@'`. -/
theorem mapDomain_ok_structure {x : List Nat} {f : List Nat → Except Failure (List Nat)}
    {r : List Nat} (h : mapDomain x f = .ok r) :
    ∃ ls, mapRev f (inputLabels x) = .ok ls ∧
      (r = joinSep 0x2E ls ∨ ∃ u, 64 ∉ u ∧ r = u ++ 64 :: joinSep 0x2E ls) := by
  simp only [mapDomain, processLabels] at h
  cases hsp : jsSplit 64 x with
  | nil => exact absurd hsp jsSplit_ne_nil
  | cons p0 ps =>
    have hdp : domainPart x =
        (match p0 :: ps with | _ :: p1 :: _ => p1 | _ => x) := by
      unfold domainPart
      rw [hsp]
    rw [hsp] at h
    cases ps with
    | nil =>
      dsimp only at h hdp
      have hil : inputLabels x = jsSplit 0x2E (normalizeSeps x) := by
        unfold inputLabels
        rw [hdp]
      rw [hil]
      revert h
      cases hm : mapRev f (jsSplit 0x2E (normalizeSeps x)) with
      | error e => intro h; simp at h
      | ok ls =>
        intro h
        simp only [Except.ok.injEq] at h
        exact ⟨ls, rfl, Or.inl (by rw [← h]; simp)⟩
    | cons p1 rest =>
      dsimp only at h hdp
      have hil : inputLabels x = jsSplit 0x2E (normalizeSeps p1) := by
        unfold inputLabels
        rw [hdp]
      rw [hil]
      revert h
      cases hm : mapRev f (jsSplit 0x2E (normalizeSeps p1)) with
      | error e => intro h; simp at h
      | ok ls =>
        intro h
        simp only [Except.ok.injEq] at h
        refine ⟨ls, rfl, Or.inr ⟨p0, ?_, ?_⟩⟩
        · exact jsSplit_parts_no_sep (hsp ▸ List.mem_cons_self p0 (p1 :: rest))
        · rw [← h]
          simp

/-- Values in a successful `decodeLoop` result are either initial output
values or at least the starting `n`. -/
theorem decodeLoop_mem_ge : ∀ {bound : Nat} {digits : List Nat} {i n bias output r},
    decodeLoop bound digits i n bias output = .ok r →
    ∀ c ∈ r, c ∈ output ∨ n ≤ c := by
  intro bound
  induction bound with
  | zero =>
    intro digits i n bias output r h c hc
    match digits with
    | [] =>
      simp only [decodeLoop, Except.ok.injEq] at h
      exact Or.inl (h ▸ hc)
    | d :: ds => simp [decodeLoop] at h
  | succ bound ih =>
    intro digits i n bias output r h c hc
    match digits with
    | [] =>
      simp only [decodeLoop, Except.ok.injEq] at h
      exact Or.inl (h ▸ hc)
    | d :: ds =>
      simp only [decodeLoop] at h
      split at h
      · simp at h
      · rename_i i' rest hv
        split at h
        · simp at h
        · rcases ih h c hc with h1 | h1
          · have hle : i' % (output.length + 1) ≤ output.length :=
              Nat.le_of_lt_succ (Nat.mod_lt _ (Nat.succ_pos _))
            rcases (List.mem_insertIdx hle).1 h1 with h2 | h2
            · rw [h2]
              exact Or.inr (Nat.le_add_right _ _)
            · exact Or.inl h2
          · exact Or.inr (Nat.le_trans (Nat.le_add_right _ _) h1)

theorem fromCodePoint_mem : ∀ {cps us : List Nat}, fromCodePoint cps = .ok us →
    ∀ c ∈ us, c ∈ cps ∨ 0xD800 ≤ c := by
  intro cps
  induction cps with
  | nil =>
    intro us h c hc
    simp only [fromCodePoint, Except.ok.injEq] at h
    subst h
    cases hc
  | cons cp rest ih =>
    intro us h c hc
    simp only [fromCodePoint] at h
    split at h
    · simp at h
    · revert h
      cases hrest : fromCodePoint rest with
      | error e => intro h; simp at h
      | ok vs =>
        intro h
        simp only [Except.ok.injEq] at h
        subst h
        rcases List.mem_append.1 hc with h1 | h1
        · unfold utf16Units at h1
          split at h1
          · left
            rw [List.mem_singleton.1 h1]
            exact List.mem_cons_self cp rest
          · rcases List.mem_cons.1 h1 with h2 | h2
            · right
              rw [h2]
              exact Nat.le_add_right 0xD800 _
            · right
              rw [List.mem_singleton.1 h2]
              exact Nat.le_trans (by decide) (Nat.le_add_right 0xDC00 _)
        · rcases ih hrest c h1 with h2 | h2
          · exact Or.inl (List.mem_cons_of_mem _ h2)
          · exact Or.inr h2

/-- Characters of a successful `decode` output are either low characters of
the input or at least `initialN = 0x80` (in particular never `'@'` or `'.'`
when the input avoids them). -/
theorem decode_ok_chars {s r : List Nat} (h : decode s = .ok r) :
    ∀ c ∈ r, c ∈ s ∨ 0x80 ≤ c := by
  intro c hc
  unfold decode at h
  split at h
  · simp at h
  · rename_i cps hcps
    simp only [decodeCodePoints] at hcps
    split at hcps
    · simp at hcps
    · rcases fromCodePoint_mem h c hc with h1 | h1
      · rcases decodeLoop_mem_ge hcps c h1 with h2 | h2
        · exact Or.inl (List.mem_of_mem_take h2)
        · exact Or.inr h2
      · right; omega

theorem toLowerCase_mem : ∀ {s : List Nat} {c : Nat}, c ∈ toLowerCase s →
    c ∈ s ∨ (0x61 ≤ c ∧ c ≤ 0x7A) ∨ c = 0x307 := by
  intro s
  induction s with
  | nil => intro c hc; cases hc
  | cons u rest ih =>
    intro c hc
    simp only [toLowerCase, List.mem_append] at hc
    rcases hc with hc | hc
    · unfold lowerUnit at hc
      by_cases h1 : 0x41 ≤ u ∧ u ≤ 0x5A
      · rw [if_pos h1] at hc
        have := List.mem_singleton.1 hc
        right; left; omega
      · rw [if_neg h1] at hc
        by_cases h2 : u = 0x130
        · rw [if_pos h2] at hc
          have : c = 0x69 ∨ c = 0x307 := by simpa using hc
          rcases this with h3 | h3
          · right; left; omega
          · right; right; exact h3
        · rw [if_neg h2] at hc
          by_cases h3 : u = 0x212A
          · rw [if_pos h3] at hc
            have := List.mem_singleton.1 hc
            right; left; omega
          · rw [if_neg h3] at hc
            have := List.mem_singleton.1 hc
            exact Or.inl (this ▸ List.mem_cons_self u rest)
    · rcases ih hc with h | h
      · exact Or.inl (List.mem_cons_of_mem _ h)
      · exact Or.inr h

theorem normalizeSeps_mem {dom : List Nat} {c : Nat} (hc : c ∈ normalizeSeps dom) :
    c = 0x2E ∨ c ∈ dom := by
  unfold normalizeSeps at hc
  obtain ⟨u, hu, he⟩ := List.mem_map.1 hc
  by_cases h : u = 0x2E ∨ u = 0x3002 ∨ u = 0xFF0E ∨ u = 0xFF61
  · rw [if_pos h] at he
    exact Or.inl he.symm
  · rw [if_neg h] at he
    exact Or.inr (he ▸ hu)

theorem domainPart_64free {x : List Nat} : 64 ∉ domainPart x := by
  unfold domainPart
  cases h : jsSplit 64 x with
  | nil => exact absurd h jsSplit_ne_nil
  | cons p0 ps =>
    cases ps with
    | nil =>
      have hx : x = p0 := by
        have := @joinSep_jsSplit 64 x
        rw [h] at this
        exact this.symm
      rw [hx]
      exact jsSplit_parts_no_sep (h ▸ List.mem_cons_self p0 [])
    | cons p1 rest =>
      exact jsSplit_parts_no_sep (h ▸ List.mem_cons_of_mem _ (List.mem_cons_self p1 rest))

theorem labels_64free {x : List Nat} : ∀ l ∈ inputLabels x, 64 ∉ l := by
  intro l hl hm
  unfold inputLabels at hl
  have := jsSplit_mem_subset hl 64 hm
  rcases normalizeSeps_mem this with h | h
  · omega
  · exact domainPart_64free h

theorem labels_46free {x : List Nat} : ∀ l ∈ inputLabels x, 46 ∉ l := by
  intro l hl
  exact jsSplit_parts_no_sep hl

theorem toUnicodeLabel_64free {l r : List Nat} (h : toUnicodeLabel l = .ok r)
    (hl : 64 ∉ l) : 64 ∉ r := by
  unfold toUnicodeLabel at h
  split at h
  · intro hm
    rcases decode_ok_chars h 64 hm with h1 | h1
    · rcases toLowerCase_mem h1 with h2 | h2 | h2
      · exact hl (List.mem_of_mem_drop h2)
      · omega
      · omega
    · omega
  · simp only [Except.ok.injEq] at h
    exact h ▸ hl

theorem toASCIILabel_ok_chars {l r : List Nat} (h : toASCIILabel l = .ok r)
    (hl : ∀ c ∈ l, c ≠ 46 ∧ c ≠ 64) : ∀ c ∈ r, c < 0x80 ∧ c ≠ 46 ∧ c ≠ 64 := by
  intro c hc
  unfold toASCIILabel at h
  split at h
  · revert h
    cases he : encode l with
    | error e => intro h; simp at h
    | ok enc =>
      intro h
      simp only [Except.ok.injEq] at h
      subst h
      rcases List.mem_append.1 hc with h1 | h1
      · have h2 : c = 120 ∨ c = 110 ∨ c = 45 ∨ c = 45 := by
          simpa [xnTag] using h1
        rcases h2 with h2 | h2 | h2 | h2 <;> subst h2 <;>
          exact ⟨by decide, by decide, by decide⟩
      · exact encode_ok_chars he (fun u hu _ => hl u hu) c h1
  · rename_i hany
    simp only [Except.ok.injEq] at h
    subst h
    refine ⟨?_, hl c hc⟩
    by_contra hge
    exact hany (List.any_eq_true.2 ⟨c, hc, by simp; omega⟩)

/-- A successful `toASCII` result is a fixed point of `toASCII`. -/
theorem toASCII_ok_fixed {x r : List Nat} (h : toASCII x = .ok r) :
    toASCII r = .ok r := by
  obtain ⟨ls, hls, hshape⟩ := mapDomain_ok_structure h
  have hmembers : ∀ r' ∈ ls, ∀ c ∈ r', c < 0x80 ∧ c ≠ 46 ∧ c ≠ 64 := by
    intro r' hr'
    obtain ⟨l, hl, he⟩ := mapRev_ok_members hls r' hr'
    exact toASCIILabel_ok_chars he (fun c hc =>
      ⟨fun h46 => labels_46free l hl (h46 ▸ hc), fun h64 => labels_64free l hl (h64 ▸ hc)⟩)
  have hjoin_chars : ∀ c ∈ joinSep 0x2E ls, c < 0x80 ∧ c ≠ 64 := by
    intro c hc
    rcases joinSep_mem hc with h1 | ⟨l, hl, hcl⟩
    · subst h1
      exact ⟨by decide, by decide⟩
    · exact ⟨(hmembers l hl c hcl).1, (hmembers l hl c hcl).2.2⟩
  have hjoined64 : 64 ∉ joinSep 0x2E ls := fun hm => (hjoin_chars 64 hm).2 rfl
  have hls_ne : ls ≠ [] := by
    intro he
    subst he
    exact jsSplit_ne_nil (mapRev_ok_nil hls)
  have hdomr : domainPart r = joinSep 0x2E ls := by
    rcases hshape with h1 | ⟨u, hu, h1⟩
    · rw [h1]
      exact domainPart_no_at (h1 ▸ hjoined64)
    · rw [h1]
      exact domainPart_single_at hu hjoined64
  have hat : countEq r 64 ≤ 1 := by
    rcases hshape with h1 | ⟨u, hu, h1⟩
    · rw [h1, countEq_zero hjoined64]
      exact Nat.zero_le _
    · rw [h1, countEq_append, countEq_cons, countEq_zero hjoined64, countEq_zero hu]
      simp
  have hn : normalizeSeps (domainPart r) = domainPart r := by
    rw [hdomr]
    exact normalizeSeps_ascii (fun c hc => (hjoin_chars c hc).1)
  have hlabels : inputLabels r = ls := by
    unfold inputLabels
    rw [hn, hdomr]
    exact jsSplit_joinSep hls_ne (fun l hl hm =>
      (hmembers l hl 0x2E hm).2.1 rfl)
  apply mapDomain_fixed hat hn
  intro l hl
  rw [hlabels] at hl
  unfold toASCIILabel
  rw [if_neg]
  intro hany
  simp only [List.any_eq_true, decide_eq_true_eq] at hany
  obtain ⟨c, hc, hgt⟩ := hany
  exact absurd (hmembers l hl c hc).1 (by omega)

/-- The claim C3 counterexample: a label whose first four characters read
`xn--` in uppercase is left untouched by `toUnicode`, although `decode` of the
lowercased remainder succeeds with a different result. -/
theorem toUnicode_upper_xn_untouched :
    toUnicode (units "XN--A") = .ok (units "XN--A") ∧
    decode (toLowerCase ((units "XN--A").drop 4)) = .ok [0x80] ∧
    units "XN--A" ≠ [0x80] := by decide

/-- Claim C3 (amended): `toUnicode` processes each label through `mapDomain`;
a label is replaced by `decode` of the lowercased remainder exactly when its
first four code units are `xn--` in that exact (lower) case, and every other
label is left unchanged.  The `xn--` test is case sensitive. -/
theorem toUnicode_label_dichotomy :
    ∀ (input s : List Nat),
      toUnicode input = mapDomain input toUnicodeLabel ∧
      (s.take 4 = xnTag → toUnicodeLabel s = decode (toLowerCase (s.drop 4))) ∧
      (s.take 4 ≠ xnTag → toUnicodeLabel s = .ok s) := by
  intro input s
  refine ⟨rfl, fun h => ?_, fun h => ?_⟩
  · simp [toUnicodeLabel, h]
  · simp [toUnicodeLabel, h]

theorem toUnicode_label_dichotomy_witness :
    toUnicodeLabel (units "xn--tda") = decode (toLowerCase ((units "xn--tda").drop 4)) ∧
    toUnicodeLabel (units "de") = .ok (units "de") :=
  ⟨(toUnicode_label_dichotomy [] (units "xn--tda")).2.1 (by decide),
   (toUnicode_label_dichotomy [] (units "de")).2.2 (by decide)⟩

/-- The claim C4 counterexample: `decode` can also fail with the built-in
`RangeError` of `String.fromCodePoint` (an invalid code point above 0x10FFFF),
which is none of the three `PUNYCODE_ERRORS` kinds. -/
theorem decode_invalid_code_point :
    decode (units "4w64n") = .error (.invalidCodePoint 2000128) ∧
    ∀ pe : PunyErr, Failure.invalidCodePoint 2000128 ≠ .puny pe :=
  ⟨rfl, fun _ h => Failure.noConfusion h⟩

/-- Claim C4 (amended): `encode` fails only with `Overflow`; `decode` fails
only with `Overflow`, `NotBasic`, `InvalidInput`, or the built-in
`String.fromCodePoint` range error on a decoded value above 0x10FFFF;
`toUnicode`/`toASCII` propagate the codec failures unmodified (their failure
value is always a failure value of `decode` resp. `encode` itself); and the
three error kinds carry the fixed messages of `PUNYCODE_ERRORS`. -/
theorem error_taxonomy :
    ∀ (input : List Nat) (e : Failure),
      (encode input = .error e → e = .puny .overflow) ∧
      (decode input = .error e →
        e = .puny .overflow ∨ e = .puny .notBasic ∨ e = .puny .invalidInput ∨
          ∃ cp, 0x10FFFF < cp ∧ e = .invalidCodePoint cp) ∧
      (toUnicode input = .error e → ∃ s, decode s = .error e) ∧
      (toASCII input = .error e → ∃ s, encode s = .error e) ∧
      PUNYCODE_ERRORS .overflow = "Overflow: input needs wider integers to process" ∧
      PUNYCODE_ERRORS .notBasic = "Illegal input >= 0x80 (not a basic code point)" ∧
      PUNYCODE_ERRORS .invalidInput = "Invalid input" := by
  intro input e
  exact ⟨encode_error, decode_error, toUnicode_error, toASCII_error, rfl, rfl, rfl⟩

theorem error_taxonomy_witness :
    Failure.puny .invalidInput = .puny .overflow ∨
    Failure.puny .invalidInput = .puny .notBasic ∨
    Failure.puny .invalidInput = .puny .invalidInput ∨
    ∃ cp, 0x10FFFF < cp ∧ Failure.puny .invalidInput = .invalidCodePoint cp :=
  (error_taxonomy [0x81] (.puny .invalidInput)).2.1 (by rfl)

/-- The claim C5 counterexample: with two `'@'` characters, the per-label
processing is NOT applied to the entire remainder after the first `'@'`; the
second `'@'` and everything after it are dropped instead. -/
theorem mapDomain_entire_remainder_fails :
    mapDomain (units "a@b@c") (fun s => .ok (s ++ s)) = .ok (units "a@bb") ∧
    (processLabels (units "b@c") (fun s => .ok (s ++ s))).map
      (fun r => units "a" ++ 64 :: r) = .ok (units "a@b@cb@c") ∧
    units "a@bb" ≠ units "a@b@cb@c" := by decide

/-- Claim C5 (amended): for an input with exactly one `'@'`, `mapDomain` (and
hence `toASCII`/`toUnicode`, which are `mapDomain` applications) passes the
part up to and including the `'@'` through unchanged and applies the per-label
processing to the remainder. -/
theorem mapDomain_single_at :
    ∀ (f : List Nat → Except Failure (List Nat)) (pre post : List Nat),
      64 ∉ pre → 64 ∉ post →
      mapDomain (pre ++ 64 :: post) f = (processLabels post f).map
        (fun r => pre ++ 64 :: r) := by
  intro f pre post hpre hpost
  simp only [mapDomain, jsSplit_append_sep hpre, jsSplit_no_sep hpost]
  cases hp : processLabels post f with
  | error e => simp [hp, Except.map]
  | ok r => simp [hp, Except.map]

theorem mapDomain_single_at_witness :
    mapDomain (units "user@münchen.de") toASCIILabel =
      (processLabels (units "münchen.de") toASCIILabel).map
        (fun r => units "user" ++ 64 :: r) := by
  rw [show units "user@münchen.de" = units "user" ++ 64 :: units "münchen.de" from rfl]
  exact mapDomain_single_at toASCIILabel (units "user") (units "münchen.de")
    (by decide) (by decide)

/-- Claim C8 counterexample: `decode("xyz-")` does not fail at all (the claim
and the repository's own test expect an `InvalidInput` error). -/
theorem decode_xyz_dash_no_error :
    decode (units "xyz-") ≠ .error (.puny .invalidInput) := by decide

/-- Claim C8 (amended): `decode("xyz-")` succeeds, returning `"xyz"` (the
delimiter is the last character, so the whole input is a basic prefix with an
empty encoded part, exactly like `decode("Bach-") = "Bach"` elsewhere in the
test suite). -/
theorem decode_xyz_dash_ok : decode (units "xyz-") = .ok (units "xyz") := rfl

/-- Claim C9 counterexample: `decode("\x81")` does not fail with `Overflow`
(the claim and the repository's own test expect the overflow message). -/
theorem decode_x81_not_overflow :
    decode [0x81] ≠ .error (.puny .overflow) := by decide

/-- Claim C9 (amended): `decode("\x81")` fails with `InvalidInput`: with no
delimiter the basic prefix is empty, so 0x81 is consumed as a digit, and
`basicToDigit 0x81 = base` triggers the `invalid-input` error (the `not-basic`
check does not apply, and no overflow check is reached). -/
theorem decode_x81_invalid_input :
    decode [0x81] = .error (.puny .invalidInput) := rfl

/-- Claim C10: with two or more `'@'` characters, `mapDomain` keeps the text
before the first `'@'` and the `'@'` itself, applies the per-label processing
only to the text strictly between the first and the second `'@'`, and drops
the second `'@'` with everything after it. -/
theorem mapDomain_two_at_drops_tail :
    ∀ (f : List Nat → Except Failure (List Nat)) (pre mid post : List Nat),
      64 ∉ pre → 64 ∉ mid →
      mapDomain (pre ++ 64 :: (mid ++ 64 :: post)) f = (processLabels mid f).map
        (fun r => pre ++ 64 :: r) := by
  intro f pre mid post hpre hmid
  simp only [mapDomain, jsSplit_append_sep hpre, jsSplit_append_sep hmid]
  cases hp : processLabels mid f with
  | error e => simp [hp, Except.map]
  | ok r => simp [hp, Except.map]

theorem mapDomain_two_at_drops_tail_witness :
    mapDomain (units "a@b@c") Except.ok = (processLabels (units "b") Except.ok).map
      (fun r => units "a" ++ 64 :: r) := by
  rw [show units "a@b@c" = units "a" ++ 64 :: (units "b" ++ 64 :: units "c") from rfl]
  exact mapDomain_two_at_drops_tail Except.ok (units "a") (units "b") (units "c")
    (by decide) (by decide)

/-- The claim C6 counterexample: an ASCII-only string with two `'@'`
characters is NOT passed through unchanged by `toASCII`/`toUnicode` (the part
after the second `'@'` is dropped). -/
theorem ascii_two_at_not_fixed :
    (units "a@b@c").all (fun c => decide (c < 0x80)) = true ∧
    toASCII (units "a@b@c") = .ok (units "a@b") ∧
    toUnicode (units "a@b@c") = .ok (units "a@b") ∧
    units "a@b" ≠ units "a@b@c" := by decide

/-- Claim C6 (amended): an ASCII-only input with at most one `'@'` passes
through `toASCII` unchanged, and through `toUnicode` unchanged provided no
label starts with `xn--` (an ASCII-only `xn--` label IS transformed by
`toUnicode`; that is its purpose). -/
theorem ascii_passthrough :
    ∀ x : List Nat, (∀ c ∈ x, c < 0x80) → countEq x 64 ≤ 1 →
      toASCII x = .ok x ∧
      ((∀ l ∈ inputLabels x, l.take 4 ≠ xnTag) → toUnicode x = .ok x) := by
  intro x hascii hat
  have hdom : ∀ c ∈ domainPart x, c < 0x80 := fun c hc => hascii c (domainPart_subset hc)
  have hn : normalizeSeps (domainPart x) = domainPart x := normalizeSeps_ascii hdom
  have hlab := labels_ascii hascii
  constructor
  · apply mapDomain_fixed hat hn
    intro l hl
    unfold toASCIILabel
    rw [if_neg]
    intro hany
    simp only [List.any_eq_true, decide_eq_true_eq] at hany
    obtain ⟨c, hc, hgt⟩ := hany
    exact absurd (hlab l hl c hc) (by omega)
  · intro hxn
    apply mapDomain_fixed hat hn
    intro l hl
    unfold toUnicodeLabel
    rw [if_neg (hxn l hl)]

theorem ascii_passthrough_witness :
    toASCII (units "example.com") = .ok (units "example.com") ∧
    toUnicode (units "example.com") = .ok (units "example.com") :=
  ⟨(ascii_passthrough (units "example.com") (by decide) (by decide)).1,
   (ascii_passthrough (units "example.com") (by decide) (by decide)).2 (by decide)⟩

/-- The claim C7 counterexample: `toUnicode` is not idempotent; decoding
`xn--xn--a-ea` produces a label that itself begins with `xn--`, and the second
application fails. -/
theorem toUnicode_not_idempotent :
    toUnicode (units "xn--xn--a-ea") = .ok [120, 110, 45, 45, 128, 97] ∧
    (toUnicode (units "xn--xn--a-ea")).bind toUnicode = .error (.puny .invalidInput) ∧
    (toUnicode (units "xn--xn--a-ea")).bind toUnicode ≠ toUnicode (units "xn--xn--a-ea") := by
  decide

/-- A second source of `toUnicode` non-idempotence (supporting the amended
claim C7): decoding can insert a non-ASCII separator (here U+3002), which the
second application normalizes to `'.'` and splits on. -/
theorem toUnicode_separator_insertion :
    toUnicode (units "xn--ab-r13a") = .ok [97, 0x3002, 98] ∧
    (toUnicode (units "xn--ab-r13a")).bind toUnicode = .ok [97, 46, 98] ∧
    (toUnicode (units "xn--ab-r13a")).bind toUnicode ≠ toUnicode (units "xn--ab-r13a") := by
  decide

/-- Claim C7 (amended): `toASCII` is idempotent on every input (composition
through the exception monad).  `toUnicode` is idempotent whenever its result
contains no label that again starts with `xn--` and no separator that the
normalization rewrites; without those conditions idempotence fails (see the
counterexamples). -/
theorem idempotence :
    (∀ x, (toASCII x).bind toASCII = toASCII x) ∧
    (∀ x r, toUnicode x = .ok r →
      normalizeSeps (domainPart r) = domainPart r →
      (∀ l ∈ inputLabels r, l.take 4 ≠ xnTag) →
      (toUnicode x).bind toUnicode = toUnicode x) := by
  constructor
  · intro x
    cases h : toASCII x with
    | error e => rfl
    | ok r =>
      show (Except.ok r).bind toASCII = Except.ok r
      simp only [Except.bind]
      exact toASCII_ok_fixed h
  · intro x r hx hn hxn
    rw [hx]
    show (Except.ok r).bind toUnicode = Except.ok r
    simp only [Except.bind]
    obtain ⟨ls, hls, hshape⟩ := mapDomain_ok_structure hx
    have hmem64 : ∀ r' ∈ ls, 64 ∉ r' := by
      intro r' hr'
      obtain ⟨l, hl, he⟩ := mapRev_ok_members hls r' hr'
      exact toUnicodeLabel_64free he (labels_64free l hl)
    have hjoined64 : 64 ∉ joinSep 0x2E ls := by
      intro hm
      rcases joinSep_mem hm with h1 | ⟨l, hl, hcl⟩
      · exact absurd h1 (by decide)
      · exact hmem64 l hl hcl
    have hat : countEq r 64 ≤ 1 := by
      rcases hshape with h1 | ⟨u, hu, h1⟩
      · rw [h1, countEq_zero hjoined64]
        exact Nat.zero_le _
      · rw [h1, countEq_append, countEq_cons, countEq_zero hjoined64, countEq_zero hu]
        simp
    apply mapDomain_fixed hat hn
    intro l hl
    unfold toUnicodeLabel
    rw [if_neg (hxn l hl)]

theorem idempotence_witness :
    (toASCII (units "münchen.de")).bind toASCII = toASCII (units "münchen.de") ∧
    (toUnicode (units "xn--tda.de")).bind toUnicode = toUnicode (units "xn--tda.de") :=
  ⟨idempotence.1 (units "münchen.de"),
   idempotence.2 (units "xn--tda.de") [252, 46, 100, 101] (by decide) (by decide) (by decide)⟩

/-! Symbolic evaluation lemmas for the long counterexample string `c1str`
(1927 code units are beyond direct kernel evaluation, so the `List.replicate`
prefix is handled by induction). -/

theorem ucs2decode_cons_low {c : Nat} (hc : c < 0xD800) (l : List Nat) :
    ucs2decode (c :: l) = c :: ucs2decode l := by
  match l with
  | [] => rfl
  | e :: r =>
    simp only [ucs2decode]
    rw [if_neg (by omega)]

theorem ucs2decode_replicate_low {c : Nat} (hc : c < 0xD800) :
    ∀ (k : Nat) (rest : List Nat),
      ucs2decode (List.replicate k c ++ rest) = List.replicate k c ++ ucs2decode rest := by
  intro k
  induction k with
  | zero => intro rest; rfl
  | succ k ih =>
    intro rest
    rw [List.replicate_succ, List.cons_append, ucs2decode_cons_low hc, ih, List.cons_append]

theorem noLoneSurrogates_cons_low {c : Nat} (hc : c < 0xD800) (l : List Nat) :
    noLoneSurrogates (c :: l) = noLoneSurrogates l := by
  match l with
  | [] =>
    simp only [noLoneSurrogates]
    rw [decide_eq_true (Or.inl hc)]
  | v :: rest =>
    simp only [noLoneSurrogates]
    rw [if_neg (by omega), decide_eq_true (Or.inl hc), Bool.true_and]

theorem noLoneSurrogates_replicate_low {c : Nat} (hc : c < 0xD800) :
    ∀ (k : Nat) (rest : List Nat),
      noLoneSurrogates (List.replicate k c ++ rest) = noLoneSurrogates rest := by
  intro k
  induction k with
  | zero => intro rest; rfl
  | succ k ih =>
    intro rest
    rw [List.replicate_succ, List.cons_append, noLoneSurrogates_cons_low hc, ih]

theorem filter_replicate_true {p : Nat → Bool} {c : Nat} (hc : p c = true) :
    ∀ k, (List.replicate k c).filter p = List.replicate k c := by
  intro k
  induction k with
  | zero => rfl
  | succ k ih => simp [List.replicate_succ, List.filter_cons, hc, ih]

theorem foldl_findMin_replicate {n c : Nat} (hc : c < n) :
    ∀ (k : Nat) (m0 : Nat),
      List.foldl (fun m c2 => if n ≤ c2 ∧ c2 < m then c2 else m) m0 (List.replicate k c)
        = m0 := by
  intro k
  induction k with
  | zero => intro m0; rfl
  | succ k ih =>
    intro m0
    rw [List.replicate_succ, List.foldl_cons, if_neg (by omega)]
    exact ih m0

theorem ucs2decode_c1 :
    ucs2decode c1str = List.replicate 1927 97 ++ [1114111] := by
  unfold c1str
  rw [ucs2decode_replicate_low (by decide)]
  rw [show ucs2decode [0xDBFF, 0xDFFF] = [1114111] from by decide]

theorem filter_c1 :
    (List.replicate 1927 97 ++ [1114111]).filter (fun c => c < 0x80)
      = List.replicate 1927 97 := by
  rw [List.filter_append, filter_replicate_true (by decide)]
  rw [show ([1114111] : List Nat).filter (fun c => c < 0x80) = [] from by decide,
    List.append_nil]

theorem findMin_c1 :
    findMin (List.replicate 1927 97 ++ [1114111]) 128 = 1114111 := by
  unfold findMin
  rw [List.foldl_append, foldl_findMin_replicate (by decide)]
  decide

theorem encodeLoop_overflow_first {cps : List Nat} {bl bound n delta bias handled : Nat}
    {acc : List Nat}
    (h1 : handled < cps.length)
    (h2 : (maxInt - delta) / (handled + 1) < findMin cps n - n) :
    encodeLoop cps bl (bound + 1) n delta bias handled acc = .error (.puny .overflow) := by
  simp only [encodeLoop]
  rw [if_pos h1, if_pos h2]

theorem encode_c1 : encode c1str = .error (.puny .overflow) := by
  simp only [encode, ucs2decode_c1, filter_c1, initialN, initialBias]
  rw [List.length_replicate]
  have hlen : (List.replicate 1927 97 ++ ([1114111] : List Nat)).length = 1927 + 1 := by
    rw [List.length_append, List.length_replicate]
    rfl
  rw [hlen]
  exact encodeLoop_overflow_first
    (by rw [List.length_append, List.length_replicate]; decide)
    (by rw [findMin_c1]; decide)

/-- Claim C1 is false as stated: the string of 1927 `'a'`s followed by the
surrogate pair of U+10FFFF has no lone surrogates, yet `encode` fails with
Overflow (the very first delta, `(0x10FFFF - 0x80) * 1928`, exceeds
`maxInt`), so `decode(encode(s))` is an error, not `s`. -/
theorem roundtrip_decode_encode_fails :
    (∀ u ∈ c1str, u < 0x10000) ∧ noLoneSurrogates c1str = true ∧
    (encode c1str).bind decode = .error (.puny .overflow) ∧
    (encode c1str).bind decode ≠ .ok c1str := by
  refine ⟨?_, ?_, ?_, ?_⟩
  · intro u hu
    unfold c1str at hu
    rcases List.mem_append.1 hu with h | h
    · rw [List.eq_of_mem_replicate h]; decide
    · have h2 : u = 0xDBFF ∨ u = 0xDFFF := by simpa using h
      rcases h2 with h2 | h2 <;> (subst h2; decide)
  · unfold c1str
    rw [noLoneSurrogates_replicate_low (by decide)]
    decide
  · rw [encode_c1]; rfl
  · rw [encode_c1]
    intro h
    exact Except.noConfusion h

/-! The UTF-16 round trip: `String.fromCodePoint` applied to the code points
produced by `ucs2decode` rebuilds the original code-unit list.  The bitwise
surrogate arithmetic is first reduced to `%`/`/` arithmetic. -/

theorem and_div_two_pow : ∀ (k a b : Nat), (a &&& b) / 2 ^ k = (a / 2 ^ k) &&& (b / 2 ^ k) := by
  intro k
  induction k with
  | zero => intro a b; simp
  | succ k ih =>
    intro a b
    rw [Nat.pow_succ, ← Nat.div_div_eq_div_mul, ← Nat.div_div_eq_div_mul,
      ← Nat.div_div_eq_div_mul, ih, Nat.and_div_two]

theorem and_1023_eq_mod {x : Nat} : x &&& 1023 = x % 1024 := by
  have h := Nat.and_pow_two_sub_one_eq_mod x 10
  norm_num at h
  exact h

theorem and_64512_eq {x : Nat} (hx : x < 65536) : x &&& 64512 = 1024 * (x / 1024) := by
  have hlow : (x &&& 64512) % 1024 = 0 := by
    rw [← and_1023_eq_mod, Nat.and_assoc,
      show (64512 &&& 1023 : Nat) = 0 from by decide]
    exact Nat.and_zero x
  have h1 : (x &&& 64512) / 2 ^ 10 = (x / 2 ^ 10) &&& (64512 / 2 ^ 10) :=
    and_div_two_pow 10 x 64512
  norm_num at h1
  have h2 := Nat.and_pow_two_sub_one_eq_mod (x / 1024) 6
  norm_num at h2
  have h3 : x / 1024 < 64 := by omega
  rw [h2, Nat.mod_eq_of_lt h3] at h1
  have h4 := Nat.div_add_mod (x &&& 64512) 1024
  omega

theorem utf16Units_pair {v e : Nat} (hv1 : 0xD800 ≤ v) (hv2 : v ≤ 0xDBFF)
    (he : e &&& 0xFC00 = 0xDC00) (helt : e < 0x10000) :
    ((v &&& 0x3FF) <<< 10) + (e &&& 0x3FF) + 0x10000 ≤ 0x10FFFF ∧
    utf16Units (((v &&& 0x3FF) <<< 10) + (e &&& 0x3FF) + 0x10000) = [v, e] := by
  have hv3 : v &&& 1023 = v % 1024 := and_1023_eq_mod
  have he3 : e &&& 1023 = e % 1024 := and_1023_eq_mod
  have he4 : 1024 * (e / 1024) = 56320 := (and_64512_eq helt).symm.trans he
  have hsh : (v % 1024) <<< 10 = (v % 1024) * 1024 := by
    rw [Nat.shiftLeft_eq]
  constructor
  · rw [hv3, he3, hsh]
    omega
  · rw [hv3, he3, hsh]
    unfold utf16Units
    rw [if_neg (by omega)]
    simp only [List.cons.injEq, and_true]
    omega

theorem ucs2_roundtrip : ∀ (s : List Nat), (∀ u ∈ s, u < 0x10000) →
    fromCodePoint (ucs2decode s) = .ok s := by
  intro s
  induction s using ucs2decode.induct with
  | case1 => intro _; rfl
  | case2 v =>
    intro h
    have hv := h v (List.mem_cons_self v [])
    simp only [ucs2decode, fromCodePoint]
    rw [if_neg (by omega)]
    unfold utf16Units
    rw [if_pos (by omega)]
    rfl
  | case3 v e rest hv he ih =>
    intro h
    have hem := h e (by simp)
    obtain ⟨hle, hunits⟩ := utf16Units_pair hv.1 hv.2 he hem
    simp only [ucs2decode, if_pos hv, if_pos he]
    simp only [fromCodePoint]
    rw [if_neg (by omega)]
    rw [ih (fun u hu => h u (by simp [hu]))]
    dsimp only
    rw [hunits]
    rfl
  | case4 v e rest hv he ih =>
    intro h
    have hvm := h v (by simp)
    simp only [ucs2decode, if_pos hv, if_neg he]
    simp only [fromCodePoint]
    rw [if_neg (by omega)]
    rw [ih (fun u hu => h u (by simp [List.mem_cons.1 hu]))]
    dsimp only
    unfold utf16Units
    rw [if_pos (by omega)]
    rfl
  | case5 v e rest hv ih =>
    intro h
    have hvm := h v (by simp)
    simp only [ucs2decode, if_neg hv]
    simp only [fromCodePoint]
    rw [if_neg (by omega)]
    rw [ih (fun u hu => h u (by simp [List.mem_cons.1 hu]))]
    dsimp only
    unfold utf16Units
    rw [if_pos (by omega)]
    rfl

/-! Properties of the `keepB` specification device. -/

theorem keepB_zero : ∀ {l : List Nat} {m : Nat}, keepB l m 0 = l.filter (fun c => c < m) := by
  intro l
  induction l with
  | nil => intro m; rfl
  | cons c rest ih =>
    intro m
    by_cases hc : c < m
    · simp [keepB, List.filter_cons, hc, ih]
    · simp [keepB, List.filter_cons, hc, ih]

theorem keepB_append : ∀ {u : List Nat} (v : List Nat) {m r : Nat},
    keepB (u ++ v) m r = keepB u m r ++ keepB v m (r - countEq u m) := by
  intro u
  induction u with
  | nil => intro v m r; simp [keepB, countEq_nil]
  | cons c u ih =>
    intro v m r
    rw [List.cons_append]
    by_cases h1 : c < m
    · have h2 : ¬(c = m) := by omega
      simp only [keepB, if_pos h1, countEq_cons, if_neg h2, List.cons_append]
      rw [ih]
      simp
    · by_cases h2 : c = m
      · subst h2
        by_cases h3 : 0 < r
        · simp only [keepB, if_neg h1, countEq_cons, if_pos rfl]
          rw [ih]
          have h5 : r - 1 - countEq u c = r - (countEq u c + 1) := by omega
          simp [h3, h5]
        · have h5 : r = 0 := by omega
          subst h5
          simp only [keepB, if_neg h1, countEq_cons, if_pos rfl]
          rw [ih]
          have h6 : (0 : Nat) - countEq u c = 0 - (countEq u c + 1) := by omega
          simp [h3, h6]
      · have h4 : ¬(c = m ∧ 0 < r) := fun hh => h2 hh.1
        simp only [keepB, if_neg h1, if_neg h4, countEq_cons, if_neg h2]
        rw [ih]
        simp

theorem keepB_full : ∀ {l : List Nat} {m r : Nat}, countEq l m ≤ r →
    keepB l m r = l.filter (fun c => c ≤ m) := by
  intro l
  induction l with
  | nil => intro m r _; rfl
  | cons c rest ih =>
    intro m r h
    rw [countEq_cons] at h
    by_cases h1 : c < m
    · have h2 : ¬(c = m) := by omega
      rw [if_neg h2] at h
      simp only [keepB, if_pos h1, List.filter_cons]
      rw [ih h]
      simp [Nat.le_of_lt h1]
    · by_cases h2 : c = m
      · rw [if_pos h2] at h
        have h3 : 0 < r := by omega
        simp only [keepB, if_neg h1, if_pos (And.intro h2 h3), List.filter_cons]
        rw [ih (by omega)]
        simp [h2]
      · rw [if_neg h2] at h
        have h3 : ¬(c = m ∧ 0 < r) := fun hh => h2 hh.1
        simp only [keepB, if_neg h1, if_neg h3, List.filter_cons]
        rw [ih h]
        have h4 : ¬(c ≤ m) := by omega
        simp [h4]

theorem insertIdx_append_cons {α : Type} (x : α) : ∀ (u v : List α),
    (u ++ v).insertIdx u.length x = u ++ x :: v := by
  intro u
  induction u with
  | nil => intro v; rfl
  | cons c u ih =>
    intro v
    simp only [List.cons_append, List.length_cons, List.insertIdx_succ_cons, ih]

theorem countEq_pos {l : List Nat} {a : Nat} (h : a ∈ l) : 0 < countEq l a := by
  unfold countEq
  have hm : a ∈ l.filter (fun c => c = a) := List.mem_filter.2 ⟨h, by simp⟩
  have hne : l.filter (fun c => c = a) ≠ [] := by
    intro heq
    rw [heq] at hm
    cases hm
  exact List.length_pos.2 hne

/-! Inversion: the decoder's digit loop reads back exactly the value the
encoder's digit loop emitted (when it succeeds), consuming exactly the
emitted digits. -/

theorem basicToDigit_digitToBasic : ∀ d, d < base → basicToDigit (digitToBasic d 0) = d := by
  decide

theorem decodeVLI_encodeVLI : ∀ (bnd : Nat) {q bias k i w i2 : Nat} {rest rest2 : List Nat},
    q < bnd →
    decodeVLI (encodeVLI bnd q bias k ++ rest) i w k bias = .ok (i2, rest2) →
    i2 = i + q * w ∧ rest2 = rest := by
  intro bnd
  induction bnd with
  | zero =>
    intro q bias k i w i2 rest rest2 hq
    exact absurd hq (Nat.not_lt_zero q)
  | succ bnd ih =>
    intro q bias k i w i2 rest rest2 hq hdec
    have hbase : base = 36 := rfl
    have htM : tMax = 26 := rfl
    have ht1 : 1 ≤ thresholdOf k bias := thresholdOf_pos k bias
    have ht2 : thresholdOf k bias ≤ tMax := thresholdOf_le k bias
    simp only [encodeVLI] at hdec
    by_cases hqt : q < thresholdOf k bias
    · rw [if_pos hqt, List.singleton_append] at hdec
      simp only [decodeVLI] at hdec
      have hd : basicToDigit (digitToBasic q 0) = q :=
        basicToDigit_digitToBasic q (by omega)
      rw [hd] at hdec
      rw [if_neg (by omega), if_pos hqt] at hdec
      split at hdec
      · exact absurd hdec (by simp)
      · simp only [Except.ok.injEq, Prod.mk.injEq] at hdec
        exact ⟨hdec.1.symm, hdec.2.symm⟩
    · rw [if_neg hqt, List.cons_append] at hdec
      simp only [decodeVLI] at hdec
      have hmod : (q - thresholdOf k bias) % (base - thresholdOf k bias)
          < base - thresholdOf k bias := Nat.mod_lt _ (by omega)
      have hd : basicToDigit (digitToBasic
          (thresholdOf k bias +
            (q - thresholdOf k bias) % (base - thresholdOf k bias)) 0)
          = thresholdOf k bias +
            (q - thresholdOf k bias) % (base - thresholdOf k bias) :=
        basicToDigit_digitToBasic _ (by omega)
      rw [hd] at hdec
      rw [if_neg (by omega), if_neg (show ¬(thresholdOf k bias +
        (q - thresholdOf k bias) % (base - thresholdOf k bias) < thresholdOf k bias)
        by omega)] at hdec
      split at hdec
      · exact absurd hdec (by simp)
      · split at hdec
        · exact absurd hdec (by simp)
        · have hq2 : (q - thresholdOf k bias) / (base - thresholdOf k bias) < bnd := by
            have hds := Nat.div_le_self (q - thresholdOf k bias) (base - thresholdOf k bias)
            omega
          obtain ⟨h1, h2⟩ := ih hq2 hdec
          refine ⟨?_, h2⟩
          have hdm := Nat.div_add_mod (q - thresholdOf k bias) (base - thresholdOf k bias)
          have e1 : ∀ (t' B A b w' : Nat),
              (t' + B) * w' + A * (w' * b) = (t' + (b * A + B)) * w' := by
            intro t' B A b w'
            ring
          have key : (thresholdOf k bias +
                (q - thresholdOf k bias) % (base - thresholdOf k bias)) * w +
              ((q - thresholdOf k bias) / (base - thresholdOf k bias)) *
                (w * (base - thresholdOf k bias)) = q * w := by
            rw [e1, hdm]
            have hq3 : thresholdOf k bias + (q - thresholdOf k bias) = q := by omega
            rw [hq3]
          omega

theorem decode_round {q bias F i n_d : Nat} {S output final : List Nat}
    (hF : (encodeVLI (q + 1) q bias base ++ S).length ≤ F)
    (h : decodeLoop F (encodeVLI (q + 1) q bias base ++ S) i n_d bias output = .ok final) :
    ¬ (maxInt - n_d < (i + q) / (output.length + 1)) ∧
      decodeLoop S.length S ((i + q) % (output.length + 1) + 1)
        (n_d + (i + q) / (output.length + 1)) (adapt q (output.length + 1) (i = 0))
        (output.insertIdx ((i + q) % (output.length + 1)) (n_d + (i + q) / (output.length + 1)))
        = .ok final := by
  have hne : ∃ d tl, encodeVLI (q + 1) q bias base = d :: tl := by
    simp only [encodeVLI]
    by_cases hq : q < thresholdOf base bias
    · rw [if_pos hq]; exact ⟨_, _, rfl⟩
    · rw [if_neg hq]; exact ⟨_, _, rfl⟩
  obtain ⟨d, tl, hdt⟩ := hne
  rw [hdt, List.cons_append] at h hF
  rw [List.length_cons, List.length_append] at hF
  obtain ⟨F2, rfl⟩ : ∃ F2, F = F2 + 1 := ⟨F - 1, by omega⟩
  simp only [decodeLoop] at h
  match hv : decodeVLI (d :: (tl ++ S)) i 1 base bias with
  | .error e =>
    rw [hv] at h
    exact absurd h (by simp)
  | .ok (i2, rest2) =>
    rw [hv] at h
    have hv2 : decodeVLI (encodeVLI (q + 1) q bias base ++ S) i 1 base bias
        = .ok (i2, rest2) := by
      rw [hdt, List.cons_append]
      exact hv
    obtain ⟨hi2, hrest2⟩ := decodeVLI_encodeVLI (q + 1) (Nat.lt_succ_self q) hv2
    have hi3 : i2 = i + q := by omega
    rw [hi3, hrest2] at h
    dsimp only at h
    rw [Nat.add_sub_cancel_left] at h
    split at h
    · exact absurd h (by simp)
    · rename_i hov
      refine ⟨hov, ?_⟩
      rw [decodeLoop_bound (show S.length ≤ F2 by omega) (Nat.le_refl S.length)] at h
      exact h

/-! Accumulator irrelevance: the encoder loops only ever append to their
accumulator argument. -/

theorem except_map_map {ε α β γ : Type} (f : α → β) (g : β → γ) (x : Except ε α) :
    (x.map f).map g = x.map (fun a => g (f a)) := by
  cases x <;> rfl

theorem encodePass_acc {m bl : Nat} :
    ∀ (scan : List Nat) (delta bias handled : Nat) (acc : List Nat),
      encodePass m bl scan delta bias handled acc =
        (encodePass m bl scan delta bias handled []).map
          (fun r => (r.1, r.2.1, r.2.2.1, acc ++ r.2.2.2)) := by
  intro scan
  induction scan with
  | nil =>
    intro delta bias handled acc
    simp [encodePass, Except.map]
  | cons c rest ih =>
    intro delta bias handled acc
    simp only [encodePass]
    by_cases h1 : c < m
    · by_cases h2 : maxInt < delta + 1
      · rw [if_pos h1, if_pos h2, if_pos h1, if_pos h2]
        rfl
      · rw [if_pos h1, if_neg h2, if_pos h1, if_neg h2]
        exact ih _ _ _ acc
    · by_cases h2 : c = m
      · rw [if_neg h1, if_pos h2, if_neg h1, if_pos h2, List.nil_append]
        rw [ih 0 (adapt delta (handled + 1) (handled = bl)) (handled + 1)
          (acc ++ encodeVLI (delta + 1) delta bias base)]
        rw [ih 0 (adapt delta (handled + 1) (handled = bl)) (handled + 1)
          (encodeVLI (delta + 1) delta bias base)]
        rw [except_map_map]
        cases encodePass m bl rest 0 (adapt delta (handled + 1) (handled = bl))
          (handled + 1) [] <;> simp [Except.map, List.append_assoc]
      · rw [if_neg h1, if_neg h2, if_neg h1, if_neg h2]
        exact ih _ _ _ acc

theorem encodeLoop_acc {cps : List Nat} {bl : Nat} :
    ∀ (bound : Nat) (n delta bias handled : Nat) (acc : List Nat),
      encodeLoop cps bl bound n delta bias handled acc =
        (encodeLoop cps bl bound n delta bias handled []).map (fun r => acc ++ r) := by
  intro bound
  induction bound with
  | zero => intro n delta bias handled acc; rfl
  | succ bound ih =>
    intro n delta bias handled acc
    simp only [encodeLoop]
    by_cases h1 : handled < cps.length
    · by_cases h2 : (maxInt - delta) / (handled + 1) < findMin cps n - n
      · rw [if_pos h1, if_pos h2, if_pos h1, if_pos h2]
        rfl
      · rw [if_pos h1, if_neg h2, if_pos h1, if_neg h2]
        rw [encodePass_acc cps (delta + (findMin cps n - n) * (handled + 1)) bias handled acc]
        cases hp : encodePass (findMin cps n) bl cps
            (delta + (findMin cps n - n) * (handled + 1)) bias handled [] with
        | error e => simp [Except.map]
        | ok r =>
          obtain ⟨d2, b2, h2', E⟩ := r
          simp only [Except.map]
          rw [ih (findMin cps n + 1) (d2 + 1) b2 h2' (acc ++ E)]
          rw [ih (findMin cps n + 1) (d2 + 1) b2 h2' E]
          cases encodeLoop cps bl bound (findMin cps n + 1) (d2 + 1) b2 h2' [] <;>
            simp [Except.map, List.append_assoc]
    · rw [if_neg h1, if_neg h1]
      simp [Except.map]

/-! The keepB shapes around one emission: just before handling an occurrence
of `m` the decoder output is the kept prefix followed by the kept tail, and
handling it inserts `m` exactly at the junction. -/

theorem keepB_emit {pre rest : List Nat} {m : Nat} :
    keepB (pre ++ [m] ++ rest) m (countEq pre m)
      = pre.filter (fun c => c ≤ m) ++ keepB rest m 0 ∧
    keepB (pre ++ [m] ++ rest) m (countEq (pre ++ [m]) m)
      = pre.filter (fun c => c ≤ m) ++ m :: keepB rest m 0 := by
  have hc1 : countEq (pre ++ [m]) m = countEq pre m + 1 := by
    rw [countEq_append, countEq_cons, countEq_nil, if_pos rfl]
  have h1 : keepB (pre ++ [m]) m (countEq pre m) = pre.filter (fun c => c ≤ m) := by
    rw [keepB_append, keepB_full (Nat.le_refl _), Nat.sub_self]
    simp [keepB]
  have h2 : keepB (pre ++ [m]) m (countEq pre m + 1)
      = pre.filter (fun c => c ≤ m) ++ [m] := by
    rw [keepB_append, keepB_full (Nat.le_succ _)]
    have h3 : countEq pre m + 1 - countEq pre m = 1 := by omega
    rw [h3]
    simp [keepB]
  constructor
  · rw [keepB_append, h1]
    have h4 : countEq pre m - countEq (pre ++ [m]) m = 0 := by
      rw [hc1]; omega
    rw [h4]
  · rw [keepB_append, Nat.sub_self, hc1, h2, List.append_assoc, List.singleton_append]

/-- The coupled simulation of one encoder pass (fixed value `m`) against the
decoder: if the encoder pass succeeds and the decoder succeeds on the emitted
digits followed by any continuation, the decoder consumes exactly the emitted
digits and reaches the matching state. -/
theorem encodePass_sim {m bl : Nat} :
    ∀ (scan : List Nat), ∀ {pre : List Nat} {delta bias handled d2 b2 h2 : Nat}
      {E REST : List Nat} {i n_d : Nat} {output final : List Nat},
    output = keepB (pre ++ scan) m (countEq pre m) →
    output.length = handled →
    i + delta = (m - n_d) * (handled + 1) + (pre.filter (fun c => c ≤ m)).length →
    n_d ≤ m →
    ((i = 0) ↔ (handled = bl)) →
    bl ≤ handled →
    encodePass m bl scan delta bias handled [] = .ok (d2, b2, h2, E) →
    decodeLoop (E ++ REST).length (E ++ REST) i n_d bias output = .ok final →
    ∃ i2 n2 output2,
      decodeLoop REST.length REST i2 n2 b2 output2 = .ok final ∧
      output2 = keepB (pre ++ scan) m (countEq (pre ++ scan) m) ∧
      output2.length = h2 ∧
      i2 + d2 = (m - n2) * (h2 + 1) + ((pre ++ scan).filter (fun c => c ≤ m)).length ∧
      n_d ≤ n2 ∧ n2 ≤ m ∧ ((i2 = 0) ↔ (h2 = bl)) ∧ bl ≤ h2 := by
  intro scan
  induction scan with
  | nil =>
    intro pre delta bias handled d2 b2 h2 E REST i n_d output final
    intro hA hB hC hD hE hF hp hdec
    rw [List.append_nil] at hA ⊢
    simp only [encodePass, Except.ok.injEq, Prod.mk.injEq] at hp
    obtain ⟨hd2, hb2, hh2, hEe⟩ := hp
    subst hd2
    subst hb2
    subst hh2
    rw [← hEe, List.nil_append] at hdec
    exact ⟨i, n_d, output, hdec, hA, hB, hC, Nat.le_refl _, hD, hE, hF⟩
  | cons c rest ih =>
    intro pre delta bias handled d2 b2 h2 E REST i n_d output final
    intro hA hB hC hD hE hF hp hdec
    rw [List.append_cons] at hA ⊢
    simp only [encodePass] at hp
    by_cases hc1 : c < m
    · rw [if_pos hc1] at hp
      split at hp
      · exact absurd hp (by simp)
      · have hne : ¬(c = m) := by omega
        have hcnt : countEq (pre ++ [c]) m = countEq pre m := by
          rw [countEq_append, countEq_cons, countEq_nil, if_neg hne]
          omega
        have hnle : c ≤ m := by omega
        have hfil : (pre ++ [c]).filter (fun x => x ≤ m)
            = pre.filter (fun x => x ≤ m) ++ [c] := by
          rw [List.filter_append]
          congr 1
          simp [List.filter_cons, hnle]
        have hA2 : output = keepB (pre ++ [c] ++ rest) m (countEq (pre ++ [c]) m) := by
          rw [hcnt]; exact hA
        have hC2 : i + (delta + 1)
            = (m - n_d) * (handled + 1) + ((pre ++ [c]).filter (fun x => x ≤ m)).length := by
          rw [hfil, List.length_append]
          have h9 : ([c] : List Nat).length = 1 := rfl
          omega
        exact ih hA2 hB hC2 hD hE hF hp hdec
    · by_cases hc2 : c = m
      · subst hc2
        rw [if_neg hc1, if_pos rfl, List.nil_append] at hp
        rw [encodePass_acc rest 0 (adapt delta (handled + 1) (handled = bl)) (handled + 1)
          (encodeVLI (delta + 1) delta bias base)] at hp
        cases hp2 : encodePass c bl rest 0 (adapt delta (handled + 1) (handled = bl))
            (handled + 1) [] with
        | error e =>
          rw [hp2] at hp
          exact absurd hp (by simp [Except.map])
        | ok r =>
          obtain ⟨dr, br, hr, E2⟩ := r
          rw [hp2] at hp
          simp only [Except.map, Except.ok.injEq, Prod.mk.injEq] at hp
          obtain ⟨hdr, hbr, hhr, hEe⟩ := hp
          subst hdr
          subst hbr
          subst hhr
          rw [← hEe, List.append_assoc] at hdec
          obtain ⟨-, hnext⟩ := decode_round (Nat.le_refl _) hdec
          obtain ⟨hout1, hout2⟩ := @keepB_emit pre rest c
          rw [hB] at hnext
          have hrankle : (pre.filter (fun x => x ≤ c)).length ≤ output.length := by
            rw [hA, hout1, List.length_append]
            exact Nat.le_add_right _ _
          have hC2 : i + delta
              = (handled + 1) * (c - n_d) + (pre.filter (fun x => x ≤ c)).length := by
            rw [Nat.mul_comm]; exact hC
          have hrlt : (pre.filter (fun x => x ≤ c)).length < handled + 1 := by
            rw [← hB]; omega
          have hdiv : (i + delta) / (handled + 1) = c - n_d := by
            rw [hC2, Nat.mul_add_div (by omega), Nat.div_eq_of_lt hrlt]
            omega
          have hmod : (i + delta) % (handled + 1)
              = (pre.filter (fun x => x ≤ c)).length := by
            rw [hC2, Nat.mul_add_mod, Nat.mod_eq_of_lt hrlt]
          rw [hdiv, hmod] at hnext
          have hnm : n_d + (c - n_d) = c := by omega
          rw [hnm] at hnext
          rw [decide_eq_decide.mpr hE] at hnext
          have hins : (output.insertIdx (pre.filter (fun x => x ≤ c)).length c)
              = keepB (pre ++ [c] ++ rest) c (countEq (pre ++ [c]) c) := by
            rw [hA, hout1, hout2]
            exact insertIdx_append_cons c _ _
          have hBlen : (keepB (pre ++ [c] ++ rest) c (countEq (pre ++ [c]) c)).length
              = handled + 1 := by
            rw [hA, hout1, List.length_append] at hB
            rw [hout2, List.length_append, List.length_cons]
            omega
          have hfil2 : (pre ++ [c]).filter (fun x => x ≤ c)
              = pre.filter (fun x => x ≤ c) ++ [c] := by
            rw [List.filter_append]
            congr 1
            simp [List.filter_cons]
          have hC3 : ((pre.filter (fun x => x ≤ c)).length + 1) + 0
              = (c - c) * ((handled + 1) + 1)
                + ((pre ++ [c]).filter (fun x => x ≤ c)).length := by
            rw [hfil2, List.length_append, Nat.sub_self]
            have h9 : ([c] : List Nat).length = 1 := rfl
            omega
          have hE2 : (((pre.filter (fun x => x ≤ c)).length + 1 = 0)
              ↔ (handled + 1 = bl)) := by omega
          obtain ⟨i2, n2, output2, hq1, hq2, hq3, hq4, hq5, hq6, hq7, hq8⟩ :=
            ih hins (by rw [hins]; exact hBlen) hC3 (Nat.le_refl c) hE2 (by omega) hp2 hnext
          exact ⟨i2, n2, output2, hq1, hq2, hq3, hq4, Nat.le_trans hD hq5, hq6, hq7, hq8⟩
      · rw [if_neg hc1, if_neg hc2] at hp
        have hcnt : countEq (pre ++ [c]) m = countEq pre m := by
          rw [countEq_append, countEq_cons, countEq_nil, if_neg hc2]
          omega
        have hnotle : ¬(c ≤ m) := by omega
        have hfil : (pre ++ [c]).filter (fun x => x ≤ m)
            = pre.filter (fun x => x ≤ m) := by
          rw [List.filter_append]
          have h0 : ([c].filter (fun x => x ≤ m)) = [] := by
            simp [List.filter_cons, hnotle]
          rw [h0, List.append_nil]
        have hA2 : output = keepB (pre ++ [c] ++ rest) m (countEq (pre ++ [c]) m) := by
          rw [hcnt]; exact hA
        have hC2 : i + delta
            = (m - n_d) * (handled + 1) + ((pre ++ [c]).filter (fun x => x ≤ m)).length := by
          rw [hfil]; exact hC
        exact ih hA2 hB hC2 hD hE hF hp hdec

/-- The coupled simulation of the whole encoder main loop against the decoder
main loop: a successful decode of a successful encode's digit stream, started
from matching states, reproduces the code-point sequence exactly. -/
theorem encodeLoop_sim {cps : List Nat} {bl : Nat} (hb : ∀ c ∈ cps, c < 0x110000) :
    ∀ (bound : Nat) {n_e delta bias handled i n_d : Nat} {output STREAM final : List Nat},
    output = cps.filter (fun c => c < n_e) →
    output.length = handled →
    i + delta = (n_e - n_d) * (handled + 1) →
    n_d ≤ n_e →
    ((i = 0) ↔ (handled = bl)) →
    bl ≤ handled →
    encodeLoop cps bl bound n_e delta bias handled [] = .ok STREAM →
    decodeLoop STREAM.length STREAM i n_d bias output = .ok final →
    final = cps := by
  intro bound
  induction bound with
  | zero =>
    intro n_e delta bias handled i n_d output STREAM final hA hB hC hD hE hF henc hdec
    exact absurd henc (by simp [encodeLoop])
  | succ bound ihb =>
    intro n_e delta bias handled i n_d output STREAM final hA hB hC hD hE hF henc hdec
    simp only [encodeLoop] at henc
    by_cases h1 : handled < cps.length
    · rw [if_pos h1] at henc
      have hex : ∃ c ∈ cps, n_e ≤ c := by
        by_contra hno
        push_neg at hno
        have hself : cps.filter (fun c => c < n_e) = cps :=
          List.filter_eq_self.2 (fun a ha => by simp [hno a ha])
        rw [hA, hself] at hB
        omega
      obtain ⟨hmem, hge, hmin⟩ := findMin_spec hb hex
      split at henc
      · exact absurd henc (by simp)
      · cases hp : encodePass (findMin cps n_e) bl cps
            (delta + (findMin cps n_e - n_e) * (handled + 1)) bias handled [] with
        | error e =>
          rw [hp] at henc
          exact absurd henc (by simp)
        | ok r =>
          obtain ⟨d2, b2, h2, E⟩ := r
          rw [hp] at henc
          dsimp only at henc
          rw [encodeLoop_acc bound (findMin cps n_e + 1) (d2 + 1) b2 h2 E] at henc
          cases hs : encodeLoop cps bl bound (findMin cps n_e + 1) (d2 + 1) b2 h2 [] with
          | error e =>
            rw [hs] at henc
            exact absurd henc (by simp [Except.map])
          | ok S2 =>
            rw [hs] at henc
            simp only [Except.map, Except.ok.injEq] at henc
            rw [← henc] at hdec
            have hflt : cps.filter (fun c => c < n_e)
                = cps.filter (fun c => c < findMin cps n_e) := by
              apply List.filter_congr
              intro a ha
              by_cases hlt : a < n_e
              · have h2a : a < findMin cps n_e := by omega
                simp [hlt, h2a]
              · have h2a : ¬(a < findMin cps n_e) := by
                  have := hmin a ha (by omega)
                  omega
                simp [hlt, h2a]
            have hAp : output
                = keepB ([] ++ cps) (findMin cps n_e) (countEq [] (findMin cps n_e)) := by
              rw [hA, hflt, List.nil_append, countEq_nil, keepB_zero]
            have hCp : i + (delta + (findMin cps n_e - n_e) * (handled + 1))
                = (findMin cps n_e - n_d) * (handled + 1)
                  + (([] : List Nat).filter (fun c => c ≤ findMin cps n_e)).length := by
              have hd1 : findMin cps n_e - n_d = (n_e - n_d) + (findMin cps n_e - n_e) := by
                omega
              rw [hd1, Nat.add_mul]
              simp only [List.filter_nil, List.length_nil]
              omega
            obtain ⟨i2, n2, output2, hq1, hq2, hq3, hq4, hq5, hq6, hq7, hq8⟩ :=
              encodePass_sim cps hAp hB hCp (by omega) hE hF hp hdec
            have hA2 : output2 = cps.filter (fun c => c < findMin cps n_e + 1) := by
              rw [hq2, List.nil_append, keepB_full (Nat.le_refl _)]
              apply List.filter_congr
              intro a ha
              by_cases h : a ≤ findMin cps n_e
              · have h' : a < findMin cps n_e + 1 := by omega
                simp [h, h']
              · have h' : ¬(a < findMin cps n_e + 1) := by omega
                simp [h, h']
            have hC4 : i2 + (d2 + 1) = (findMin cps n_e + 1 - n2) * (h2 + 1) := by
              have hlen : ((([] : List Nat) ++ cps).filter
                  (fun c => c ≤ findMin cps n_e)).length = h2 := by
                rw [← hq3, hq2, keepB_full (Nat.le_refl _)]
              have hms : findMin cps n_e + 1 - n2 = (findMin cps n_e - n2) + 1 := by omega
              rw [hms, Nat.add_mul, Nat.one_mul]
              omega
            exact ihb hA2 hq3 hC4 (by omega) hq7 hq8 hs hq1
    · rw [if_neg h1] at henc
      simp only [Except.ok.injEq] at henc
      rw [← henc] at hdec
      simp only [decodeLoop, Except.ok.injEq] at hdec
      have hle : output.length ≤ cps.length := by
        rw [hA]
        exact List.length_filter_le _ _
      have hlen2 : (cps.filter (fun c => c < n_e)).length = cps.length := by
        rw [← hA]
        omega
      have heq : cps.filter (fun c => c < n_e) = cps :=
        (List.filter_sublist cps).eq_of_length hlen2
      rw [← hdec, hA, heq]

/-! The emitted digit stream never contains the delimiter, so the decoder's
`lastIndexOf` finds exactly the delimiter the encoder wrote. -/

theorem digit_ne_delim : ∀ d, d < base → digitToBasic d 0 ≠ 45 := by decide

theorem encodePass_no_delim {n bl : Nat} :
    ∀ {scan : List Nat} {delta bias handled acc d' b' h' a'},
      encodePass n bl scan delta bias handled acc = .ok (d', b', h', a') →
      ∀ c ∈ a', c ∈ acc ∨ c ≠ 45 := by
  intro scan
  induction scan with
  | nil =>
    intro delta bias handled acc d' b' h' a' h c hc
    simp only [encodePass, Except.ok.injEq, Prod.mk.injEq] at h
    obtain ⟨-, -, -, h4⟩ := h
    exact Or.inl (h4 ▸ hc)
  | cons v vs ih =>
    intro delta bias handled acc d' b' h' a' h c hc
    simp only [encodePass] at h
    split at h
    · split at h
      · exact absurd h (by simp)
      · exact ih h c hc
    · split at h
      · rcases ih h c hc with h1 | h1
        · rcases List.mem_append.1 h1 with h2 | h2
          · exact Or.inl h2
          · obtain ⟨d, hd, he⟩ := encodeVLI_chars c h2
            exact Or.inr (he ▸ digit_ne_delim d hd)
        · exact Or.inr h1
      · exact ih h c hc

theorem encodeLoop_no_delim : ∀ {bound : Nat} {cps : List Nat} {bl n delta bias handled acc r},
    encodeLoop cps bl bound n delta bias handled acc = .ok r →
    ∀ c ∈ r, c ∈ acc ∨ c ≠ 45 := by
  intro bound
  induction bound with
  | zero => intro cps bl n delta bias handled acc r h; simp [encodeLoop] at h
  | succ bound ih =>
    intro cps bl n delta bias handled acc r h c hc
    simp only [encodeLoop] at h
    split at h
    · split at h
      · simp at h
      · split at h
        · simp at h
        · rename_i hpass
          rcases ih h c hc with h1 | h1
          · exact encodePass_no_delim hpass c h1
          · exact Or.inr h1
    · simp only [Except.ok.injEq] at h
      exact Or.inl (h ▸ hc)

theorem lastIdxOf_not_mem {a : Nat} : ∀ {l : List Nat}, a ∉ l → lastIdxOf a l = none := by
  intro l
  induction l with
  | nil => intro _; rfl
  | cons c rest ih =>
    intro h
    simp only [lastIdxOf, ih (fun hm => h (List.mem_cons_of_mem _ hm))]
    rw [if_neg (fun he => h (List.mem_cons.2 (Or.inl he.symm)))]

theorem lastIdxOf_append_right {a : Nat} {v : List Nat} (hv : a ∉ v) :
    ∀ (u : List Nat), lastIdxOf a (u ++ v) = lastIdxOf a u := by
  intro u
  induction u with
  | nil =>
    rw [List.nil_append, lastIdxOf_not_mem hv]
    rfl
  | cons c u ih =>
    rw [List.cons_append]
    simp only [lastIdxOf, ih]

theorem lastIdxOf_concat {a : Nat} : ∀ (u : List Nat), lastIdxOf a (u ++ [a]) = some u.length := by
  intro u
  induction u with
  | nil => simp [lastIdxOf]
  | cons c u ih =>
    rw [List.cons_append]
    simp only [lastIdxOf, ih, List.length_cons]

theorem take_len_append {α : Type} : ∀ (u v : List α), (u ++ v).take u.length = u := by
  intro u
  induction u with
  | nil => intro v; rfl
  | cons a u ih =>
    intro v
    simp only [List.cons_append, List.length_cons, List.take_succ_cons, ih]

theorem drop_len_succ_append {α : Type} : ∀ (u : List α) (c : α) (v : List α),
    (u ++ c :: v).drop (u.length + 1) = v := by
  intro u
  induction u with
  | nil => intro c v; rfl
  | cons a u ih =>
    intro c v
    simp only [List.cons_append, List.length_cons, List.drop_succ_cons]
    exact ih c v

/-- The core of the round trip: a successful `encode` main phase followed by a
successful `decode` main phase reproduces the code-point sequence. -/
theorem encode_decode_core {cps p r : List Nat}
    (hb : ∀ c ∈ cps, c < 0x110000)
    (he : encodeLoop cps (cps.filter (fun c => c < 0x80)).length (cps.length + 1) initialN 0
      initialBias (cps.filter (fun c => c < 0x80)).length
      ((cps.filter (fun c => c < 0x80)) ++
        if 0 < (cps.filter (fun c => c < 0x80)).length then [delimiter] else []) = .ok p)
    (hd : decodeCodePoints p = .ok r) : r = cps := by
  simp only [initialN, initialBias] at he
  have hBdef : cps.filter (fun c => c < 0x80) = cps.filter (fun c => c < 0x80) := rfl
  generalize hB : cps.filter (fun c => c < 0x80) = B at he
  rw [encodeLoop_acc] at he
  cases hstream : encodeLoop cps B.length (cps.length + 1) 128 0 72 B.length [] with
  | error e =>
    rw [hstream] at he
    exact absurd he (by simp [Except.map])
  | ok E =>
    rw [hstream] at he
    simp only [Except.map, Except.ok.injEq] at he
    have hnd : (45 : Nat) ∉ E := by
      intro hm
      rcases encodeLoop_no_delim hstream 45 hm with h | h
      · cases h
      · exact h rfl
    have hdel : delimiter = 45 := rfl
    have hBlt : ∀ b ∈ B, b < 0x80 := by
      intro b hb2
      rw [← hB] at hb2
      have := List.of_mem_filter hb2
      simpa using this
    have hany : (B.any fun c => 0x80 ≤ c) = false := by
      rw [List.any_eq_false]
      intro b hb2
      have := hBlt b hb2
      simp
      omega
    by_cases hbl : 0 < B.length
    · rw [if_pos hbl] at he
      rw [← he] at hd
      simp only [decodeCodePoints, initialN, initialBias] at hd
      rw [List.append_assoc, List.singleton_append] at hd
      have hlast : lastIdxOf delimiter (B ++ delimiter :: E) = some B.length := by
        rw [show (B ++ delimiter :: E) = (B ++ [delimiter]) ++ E by
          rw [List.append_assoc, List.singleton_append]]
        rw [lastIdxOf_append_right (by rw [hdel]; exact hnd), lastIdxOf_concat]
      rw [hlast] at hd
      simp only [Option.getD_some] at hd
      rw [take_len_append] at hd
      rw [if_neg (by rw [hany]; exact Bool.false_ne_true)] at hd
      rw [if_pos hbl] at hd
      rw [hdel, drop_len_succ_append] at hd
      exact encodeLoop_sim hb (cps.length + 1) hB.symm rfl (by omega) (Nat.le_refl _)
        (by simp) (Nat.le_refl _) hstream hd
    · rw [if_neg hbl] at he
      have hB0 : B = [] := List.eq_nil_of_length_eq_zero (by omega)
      rw [hB0] at he
      simp only [List.nil_append, List.append_nil] at he
      rw [← he] at hd
      simp only [decodeCodePoints, initialN, initialBias] at hd
      rw [lastIdxOf_not_mem (by rw [hdel]; exact hnd)] at hd
      simp only [Option.getD_none] at hd
      rw [List.take_zero] at hd
      rw [if_neg (by simp)] at hd
      rw [if_neg (by omega)] at hd
      rw [List.drop_zero] at hd
      rw [hB0] at hstream
      have hBlen : ([] : List Nat).length = 0 := rfl
      rw [hBlen] at hstream
      refine encodeLoop_sim hb (cps.length + 1) ?_ ?_ ?_ ?_ ?_ ?_ hstream hd
      · rw [hB, hB0]
      · rfl
      · omega
      · exact Nat.le_refl _
      · simp
      · exact Nat.le_refl _

/-- Claim C1 (amended): for every UTF-16 string without lone surrogates on
which `encode` succeeds and `decode` of the result also succeeds, the round
trip is the identity.  (Unconditional success is false: both `encode` and
`decode` can fail with Overflow, see the counterexample.) -/
theorem roundtrip_decode_encode_conditional (s p r : List Nat)
    (hu : ∀ u ∈ s, u < 0x10000) (_hls : noLoneSurrogates s = true)
    (he : encode s = .ok p) (hd : decode p = .ok r) : r = s := by
  have hb : ∀ c ∈ ucs2decode s, c < 0x110000 := ucs2decode_lt hu
  simp only [encode] at he
  unfold decode at hd
  cases hcp : decodeCodePoints p with
  | error e =>
    rw [hcp] at hd
    exact absurd hd (by simp)
  | ok out =>
    rw [hcp] at hd
    dsimp only at hd
    have hout : out = ucs2decode s := encode_decode_core hb he hcp
    rw [hout, ucs2_roundtrip s hu] at hd
    exact (Except.ok.inj hd).symm

/-- Claim C2 is false as stated: two valid Bootstring strings (lowercase
digit alphabet plus the delimiter) defeat the round trip.  `"a-99999999"`
makes `decode` itself fail with Overflow, and `"ib9b66e"` decodes successfully
to the two surrogate halves of U+10000, which `encode` (after its UCS-2 step
recombines them) re-encodes as the different string `"2n7c"`. -/
theorem bootstring_roundtrip_fails :
    (validBootstring (units "a-99999999") = true ∧
      (decode (units "a-99999999")).bind encode = .error (.puny .overflow)) ∧
    (validBootstring (units "ib9b66e") = true ∧
      decode (units "ib9b66e") = .ok [0xD800, 0xDC00] ∧
      (decode (units "ib9b66e")).bind encode = .ok (units "2n7c") ∧
      (decode (units "ib9b66e")).bind encode ≠ .ok (units "ib9b66e")) := by
  exact ⟨⟨by decide, by decide⟩, by decide, by decide, by decide, by decide⟩

/-- Claim C2 (amended): the round trip `encode (decode p) = p` holds for the
strings `p` that `encode` itself produces (from a well-formed UTF-16 input),
provided `decode p` succeeds.  For arbitrary valid Bootstring strings it
fails: `decode` can overflow, and a successfully decoded string can re-encode
differently when the decoded code points are surrogate halves that the
encoder's UCS-2 phase recombines. -/
theorem encode_decode_roundtrip_image (s p r : List Nat)
    (hu : ∀ u ∈ s, u < 0x10000) (hls : noLoneSurrogates s = true)
    (he : encode s = .ok p) (hd : decode p = .ok r) : encode r = .ok p := by
  rw [roundtrip_decode_encode_conditional s p r hu hls he hd]
  exact he

theorem encode_decode_roundtrip_image_witness :
    decode (units "mnchen-3ya") = .ok (units "münchen") ∧
    encode (units "münchen") = .ok (units "mnchen-3ya") :=
  ⟨by decide,
    encode_decode_roundtrip_image (units "münchen") (units "mnchen-3ya") (units "münchen")
      (by decide) (by decide) (by decide) (by decide)⟩

/-! `decode` cannot distinguish two inputs of equal length that agree on
every code unit below 0x80: its delimiter search, not-basic check and digit
values treat all units `≥ 0x80` alike.  This is the invariance that makes the
unit-level model of `String.prototype.toLowerCase` above faithful: the real
lowercase mapping differs from `lowerUnit` only by sending some units
`≥ 0x80` to other units `≥ 0x80` of the same count. -/

theorem basicToDigit_high {c : Nat} (h : 0x80 ≤ c) : basicToDigit c = base := by
  unfold basicToDigit
  rw [if_neg (by omega), if_neg (by omega), if_neg (by omega)]

theorem unitRel_basicToDigit {a b : Nat} (h : a = b ∨ (0x80 ≤ a ∧ 0x80 ≤ b)) :
    basicToDigit a = basicToDigit b := by
  rcases h with h | ⟨h1, h2⟩
  · rw [h]
  · rw [basicToDigit_high h1, basicToDigit_high h2]

theorem forall2_take {α β : Type} {r : α → β → Prop} :
    ∀ (n : Nat) {x : List α} {y : List β}, List.Forall₂ r x y →
      List.Forall₂ r (x.take n) (y.take n) := by
  intro n
  induction n with
  | zero =>
    intro x y h
    simp only [List.take_zero]
    exact List.Forall₂.nil
  | succ n ih =>
    intro x y h
    cases h with
    | nil => exact List.Forall₂.nil
    | cons hab ht =>
      simp only [List.take_succ_cons]
      exact List.Forall₂.cons hab (ih ht)

theorem forall2_drop {α β : Type} {r : α → β → Prop} :
    ∀ (n : Nat) {x : List α} {y : List β}, List.Forall₂ r x y →
      List.Forall₂ r (x.drop n) (y.drop n) := by
  intro n
  induction n with
  | zero =>
    intro x y h
    simpa using h
  | succ n ih =>
    intro x y h
    cases h with
    | nil => exact List.Forall₂.nil
    | cons hab ht =>
      simp only [List.drop_succ_cons]
      exact ih ht

theorem lastIdxOf_low_congr {a : Nat} (ha : a < 0x80) :
    ∀ {x y : List Nat}, List.Forall₂ (fun u v => u = v ∨ (0x80 ≤ u ∧ 0x80 ≤ v)) x y →
      lastIdxOf a x = lastIdxOf a y := by
  intro x y h
  induction h with
  | nil => rfl
  | cons hab ht ih =>
    rename_i u v x' y'
    cases hly : lastIdxOf a y' with
    | some j => simp only [lastIdxOf, ih, hly]
    | none =>
      simp only [lastIdxOf, ih, hly]
      by_cases hu : u = a
      · have hv : v = a := by rcases hab with h | h <;> omega
        rw [if_pos hu, if_pos hv]
      · have hv : ¬(v = a) := by rcases hab with h | h <;> omega
        rw [if_neg hu, if_neg hv]

theorem forall2_any80 : ∀ {x y : List Nat},
    List.Forall₂ (fun u v => u = v ∨ (0x80 ≤ u ∧ 0x80 ≤ v)) x y →
    (x.any fun c => 0x80 ≤ c) = (y.any fun c => 0x80 ≤ c) := by
  intro x y h
  induction h with
  | nil => rfl
  | cons hab ht ih =>
    rename_i u v x' y'
    simp only [List.any_cons, ih]
    congr 1
    rcases hab with h | ⟨h1, h2⟩
    · rw [h]
    · rw [decide_eq_true h1, decide_eq_true h2]

theorem forall2_low_eq : ∀ {x y : List Nat},
    List.Forall₂ (fun u v => u = v ∨ (0x80 ≤ u ∧ 0x80 ≤ v)) x y →
    (∀ c ∈ y, c < 0x80) → x = y := by
  intro x y h
  induction h with
  | nil => intro _; rfl
  | cons hab ht ih =>
    rename_i u v x' y'
    intro hlow
    have hv := hlow v (List.mem_cons_self v y')
    have huv : u = v := by rcases hab with h | h <;> omega
    rw [huv, ih (fun c hc => hlow c (List.mem_cons_of_mem _ hc))]

theorem decodeVLI_congr : ∀ {x y : List Nat},
    List.Forall₂ (fun u v => u = v ∨ (0x80 ≤ u ∧ 0x80 ≤ v)) x y →
    ∀ (i w k bias : Nat),
      (∀ e, decodeVLI x i w k bias = .error e → decodeVLI y i w k bias = .error e) ∧
      (∀ i2 rx, decodeVLI x i w k bias = .ok (i2, rx) →
        ∃ ry, decodeVLI y i w k bias = .ok (i2, ry) ∧
          List.Forall₂ (fun u v => u = v ∨ (0x80 ≤ u ∧ 0x80 ≤ v)) rx ry) := by
  intro x y h
  induction h with
  | nil =>
    intro i w k bias
    constructor
    · intro e he; exact he
    · intro i2 rx hok; exact absurd hok (by simp [decodeVLI])
  | cons hab ht ih =>
    rename_i a b x' y'
    intro i w k bias
    have hd : basicToDigit a = basicToDigit b := unitRel_basicToDigit hab
    constructor
    · intro e he
      simp only [decodeVLI] at he ⊢
      rw [← hd]
      by_cases h1 : base ≤ basicToDigit a
      · rw [if_pos h1] at he ⊢; exact he
      · rw [if_neg h1] at he ⊢
        by_cases h2 : (maxInt - i) / w < basicToDigit a
        · rw [if_pos h2] at he ⊢; exact he
        · rw [if_neg h2] at he ⊢
          by_cases h3 : basicToDigit a < thresholdOf k bias
          · rw [if_pos h3] at he
            exact absurd he (by simp)
          · rw [if_neg h3] at he ⊢
            by_cases h4 : maxInt / (base - thresholdOf k bias) < w
            · rw [if_pos h4] at he ⊢; exact he
            · rw [if_neg h4] at he ⊢
              exact (ih _ _ _ _).1 e he
    · intro i2 rx hok
      simp only [decodeVLI] at hok ⊢
      rw [← hd]
      by_cases h1 : base ≤ basicToDigit a
      · rw [if_pos h1] at hok; exact absurd hok (by simp)
      · rw [if_neg h1] at hok ⊢
        by_cases h2 : (maxInt - i) / w < basicToDigit a
        · rw [if_pos h2] at hok; exact absurd hok (by simp)
        · rw [if_neg h2] at hok ⊢
          by_cases h3 : basicToDigit a < thresholdOf k bias
          · rw [if_pos h3] at hok ⊢
            simp only [Except.ok.injEq, Prod.mk.injEq] at hok
            refine ⟨y', ?_, hok.2 ▸ ht⟩
            rw [hok.1]
          · rw [if_neg h3] at hok ⊢
            by_cases h4 : maxInt / (base - thresholdOf k bias) < w
            · rw [if_pos h4] at hok; exact absurd hok (by simp)
            · rw [if_neg h4] at hok ⊢
              exact (ih _ _ _ _).2 i2 rx hok

theorem decodeLoop_congr : ∀ (bound : Nat) {x y : List Nat},
    List.Forall₂ (fun u v => u = v ∨ (0x80 ≤ u ∧ 0x80 ≤ v)) x y →
    ∀ (i n bias : Nat) (output : List Nat),
      decodeLoop bound x i n bias output = decodeLoop bound y i n bias output := by
  intro bound
  induction bound with
  | zero =>
    intro x y h i n bias output
    cases h with
    | nil => rfl
    | cons hab ht => rfl
  | succ bound ih =>
    intro x y h i n bias output
    cases h with
    | nil => rfl
    | cons hab ht =>
      rename_i a b x' y'
      have hrel : List.Forall₂ (fun u v => u = v ∨ (0x80 ≤ u ∧ 0x80 ≤ v))
          (a :: x') (b :: y') := List.Forall₂.cons hab ht
      simp only [decodeLoop]
      cases hvx : decodeVLI (a :: x') i 1 base bias with
      | error e =>
        rw [(decodeVLI_congr hrel i 1 base bias).1 e hvx]
      | ok p =>
        obtain ⟨i2, rx⟩ := p
        obtain ⟨ry, hvy, hr⟩ := (decodeVLI_congr hrel i 1 base bias).2 i2 rx hvx
        rw [hvy]
        dsimp only
        by_cases hc : maxInt - n < i2 / (output.length + 1)
        · rw [if_pos hc, if_pos hc]
        · rw [if_neg hc, if_neg hc]
          exact ih hr _ _ _ _

theorem decodeCodePoints_congr {x y : List Nat}
    (h : List.Forall₂ (fun u v => u = v ∨ (0x80 ≤ u ∧ 0x80 ≤ v)) x y) :
    decodeCodePoints x = decodeCodePoints y := by
  simp only [decodeCodePoints]
  rw [lastIdxOf_low_congr (by decide) h]
  rw [forall2_any80 (forall2_take ((lastIdxOf delimiter y).getD 0) h)]
  by_cases hc : ((y.take ((lastIdxOf delimiter y).getD 0)).any fun c => 0x80 ≤ c) = true
  · rw [if_pos hc, if_pos hc]
  · rw [if_neg hc, if_neg hc]
    have hlowy : ∀ c ∈ y.take ((lastIdxOf delimiter y).getD 0), c < 0x80 := by
      intro c hcmem
      by_contra hge
      exact hc (List.any_eq_true.2 ⟨c, hcmem, by simp; omega⟩)
    have htakeeq : x.take ((lastIdxOf delimiter y).getD 0)
        = y.take ((lastIdxOf delimiter y).getD 0) :=
      forall2_low_eq (forall2_take _ h) hlowy
    have hdrop := forall2_drop
      (if 0 < (lastIdxOf delimiter y).getD 0 then (lastIdxOf delimiter y).getD 0 + 1 else 0) h
    have hlen := List.Forall₂.length_eq hdrop
    rw [htakeeq, hlen, decodeLoop_congr _ hdrop]

/-- The invariance backing the `lowerUnit` model: `decode` gives equal results
on any two unit lists of equal length that agree on every unit below 0x80
(pointwise, each pair of units is either equal or both `≥ 0x80`). -/
theorem decode_units_congr {x y : List Nat}
    (h : List.Forall₂ (fun u v => u = v ∨ (0x80 ≤ u ∧ 0x80 ≤ v)) x y) :
    decode x = decode y := by
  unfold decode
  rw [decodeCodePoints_congr h]

theorem roundtrip_decode_encode_conditional_witness :
    (∀ u ∈ units "ü", u < 0x10000) ∧ noLoneSurrogates (units "ü") = true ∧
    encode (units "ü") = .ok (units "tda") ∧
    decode (units "tda") = .ok (units "ü") ∧ units "ü" = units "ü" :=
  ⟨by decide, by decide, by decide, by decide,
    roundtrip_decode_encode_conditional (units "ü") (units "tda") (units "ü")
      (by decide) (by decide) (by decide) (by decide)⟩

end Punycode
